import Mathlib

/-!
Verification development for the ProbLog grounding core: the clause
database/compiler (`src/problog/clausedb.py`) and the event-based grounding
engine (`src/problog/engine_event.py`).  Pure data and operations are embedded
as executable Lean definitions; the external term library (`problog/logic.py`),
the unification primitives (`problog/engine.py`) and the ground-formula sink
(`problog/formula.py`) are not part of the sources and are modelled from the
specification where noted.
-/

namespace Problog

/-- Logic terms of `problog.logic` (external dependency of the repository).
Modelled from the spec §3: a term is a variable reference, a constant, or a
compound of a functor with ordered arguments.  `var` carries the numeric
variable name (and doubles as the integer variable references appearing in
compiled node arguments); `num` is an integer constant (`Constant`); `app`
is a compound, with nullary compounds acting as atoms.  Probability
annotations are carried separately, where the code reads them. -/
inductive PTerm where
  | var : Nat → PTerm
  | num : Int → PTerm
  | app : String → List PTerm → PTerm

mutual
/-- Decidable equality of terms (structural; written by hand because automatic
derivation does not handle the nested `List`). -/
def PTerm.decEq : (a b : PTerm) → Decidable (a = b)
  | .var a, .var b =>
      if h : a = b then .isTrue (h ▸ rfl) else .isFalse (fun hh => h (by cases hh; rfl))
  | .var _, .num _ => .isFalse (fun h => PTerm.noConfusion h)
  | .var _, .app _ _ => .isFalse (fun h => PTerm.noConfusion h)
  | .num _, .var _ => .isFalse (fun h => PTerm.noConfusion h)
  | .num a, .num b =>
      if h : a = b then .isTrue (h ▸ rfl) else .isFalse (fun hh => h (by cases hh; rfl))
  | .num _, .app _ _ => .isFalse (fun h => PTerm.noConfusion h)
  | .app _ _, .var _ => .isFalse (fun h => PTerm.noConfusion h)
  | .app _ _, .num _ => .isFalse (fun h => PTerm.noConfusion h)
  | .app f a, .app g b =>
      if hf : f = g then
        match PTerm.decEqList a b with
        | .isTrue h => .isTrue (by rw [hf, h])
        | .isFalse h => .isFalse (fun hh => h (by cases hh; rfl))
      else .isFalse (fun hh => hf (by cases hh; rfl))

/-- Decidable equality of term lists. -/
def PTerm.decEqList : (a b : List PTerm) → Decidable (a = b)
  | [], [] => .isTrue rfl
  | [], _ :: _ => .isFalse (fun h => List.noConfusion h)
  | _ :: _, [] => .isFalse (fun h => List.noConfusion h)
  | x :: xs, y :: ys =>
      match PTerm.decEq x y with
      | .isTrue h1 =>
          match PTerm.decEqList xs ys with
          | .isTrue h2 => .isTrue (by rw [h1, h2])
          | .isFalse h2 => .isFalse (fun hh => h2 (by cases hh; rfl))
      | .isFalse h1 => .isFalse (fun hh => h1 (by cases hh; rfl))
end

instance : DecidableEq PTerm := PTerm.decEq

mutual
/-- `problog.engine.is_ground` restricted to one term (`engine.py` is not under
`src/`; modelled from the spec §7's notion of groundness: no variable occurs). -/
def PTerm.isGround : PTerm → Bool
  | .var _ => false
  | .num _ => true
  | .app _ args => PTerm.isGroundList args

/-- Groundness of a list of terms (conjunction over the elements). -/
def PTerm.isGroundList : List PTerm → Bool
  | [] => true
  | t :: ts => t.isGround && PTerm.isGroundList ts
end

/-- Arity of a term as read by the clause index (`Var` has arity 0 in
`problog.logic`). -/
def PTerm.arity : PTerm → Nat
  | .var _ => 0
  | .num _ => 0
  | .app _ args => args.length

/-- Functor label of a term as read by the clause index; the label of a
variable or a constant is its printed form (`problog.logic` gives a `Var` its
name as functor; the trie never compares the label of a variable). -/
def PTerm.functorLabel : PTerm → String
  | .var n => "_V" ++ toString n
  | .num i => toString i
  | .app f _ => f

/-- Association-list lookup (used to model Python `dict.get`). -/
def alookup {α β : Type} [DecidableEq α] : List (α × β) → α → Option β
  | [], _ => none
  | (a, b) :: t, k => if a = k then some b else alookup t k

/-- Association-list update (Python `dict[k] = v`: replace or append). -/
def aset {α β : Type} [DecidableEq α] : List (α × β) → α → β → List (α × β)
  | [], k, v => [(k, v)]
  | (a, b) :: t, k, v => if a = k then (k, v) :: t else (a, b) :: aset t k v

/-! ## Clause database (`src/problog/clausedb.py`, class `ClauseDB`) -/

/-- Predicate signature: functor and arity (`head.signature`). -/
structure Sig where
  functor : String
  arity : Nat
deriving DecidableEq

/-- The node kinds stored in the flat instruction array (the namedtuples
`_fact`, `_clause`, `_call`, `_conj`, `_disj`, `_neg`, `_choice`, `_define` of
`ClauseDB`, plus the empty placeholder `()` appended by `_add_head` with
`create=False`).  Source-location fields and the `locvars` sets are metadata
not touched by any claim and are omitted; the `children` of a `define` node is
the candidate clause list owned by its clause index (the trie half of the
index is modelled separately below).  A `call` functor is a term: plain
string functors are encoded as nullary `app`s, matching the compound functors
the annotated-disjunction compiler stores on `choice` calls. -/
inductive DBNode where
  | empty
  | fact (functor : String) (args : List PTerm) (probability : Option PTerm)
  | clause (functor : String) (args : List PTerm) (probability : Option PTerm)
      (child : Nat) (varcount : Nat) (group : Option Nat)
  | call (functor : PTerm) (args : List PTerm) (defnode : Int)
  | conj (child1 child2 : Nat)
  | disj (child1 child2 : Nat)
  | neg (child : Nat)
  | choice (functor : PTerm) (args : List PTerm) (probability : Option PTerm)
      (group : Nat) (choice : Nat)
  | define (functor : String) (arity : Nat) (children : List Nat)
deriving DecidableEq

/-- Candidate list of a node (`existing.children` guarded by `if existing:` in
`_add_head`: the empty placeholder contributes no candidates). -/
def DBNode.nodeChildren : DBNode → List Nat
  | .define _ _ ch => ch
  | _ => []

/-- Whether a node is a `fact` node. -/
def DBNode.isFact : DBNode → Bool
  | .fact _ _ _ => true
  | _ => false

/-- One layer of a (possibly derived) clause database: its local node array,
its `head signature → node index` map and its redirection table
(`self.__nodes`, `self.__heads`, `self.__node_redirect`). -/
structure Layer where
  nodes : List DBNode := []
  heads : List (Sig × Nat) := []
  redirect : List (Nat × Nat) := []
deriving DecidableEq

/-- A clause database: a root (carrying the builtin table) or a derived
database extending a parent (`ClauseDB(parent=...)`, created by `extend`).
Builtins are keyed by signature and map to the (negative) builtin identifier;
`extend` passes the parent's builtins on unchanged, which is modelled by
resolving builtins through the root. -/
inductive ClauseDB where
  | root (builtins : List (Sig × Int)) (layer : Layer)
  | child (parent : ClauseDB) (layer : Layer)
deriving DecidableEq

namespace ClauseDB

/-- Total number of nodes visible in the database (`__len__`). -/
def length : ClauseDB → Nat
  | .root _ l => l.nodes.length
  | .child p l => p.length + l.nodes.length

/-- Local offset: the parent's length (`self.__offset`). -/
def offset : ClauseDB → Nat
  | .root _ _ => 0
  | .child p _ => p.length

/-- The top (local) layer. -/
def layer : ClauseDB → Layer
  | .root _ l => l
  | .child _ l => l

/-- Replace the top (local) layer; all mutating operations act there. -/
def setLayer : ClauseDB → Layer → ClauseDB
  | .root b _, l => .root b l
  | .child p _, l => .child p l

/-- `ClauseDB.get_node`: apply the redirection table, then read below the
offset from the parent and otherwise from the local array.  Out-of-range
reads (an `IndexError` in the source) are `none`. -/
def get_node : ClauseDB → Nat → Option DBNode
  | .root _ l, index =>
      let i := (alookup l.redirect index).getD index
      l.nodes.get? i
  | .child p l, index =>
      let i := (alookup l.redirect index).getD index
      if i < p.length then p.get_node i else l.nodes.get? (i - p.length)

/-- `ClauseDB._get_head`: look the signature up locally, else in the parent. -/
def get_head : ClauseDB → Sig → Option Nat
  | .root _ l, sig => alookup l.heads sig
  | .child p l, sig =>
      match alookup l.heads sig with
      | some n => some n
      | none => p.get_head sig

/-- `ClauseDB.get_builtin`: resolved at the root (a derived database is
constructed with its parent's builtin table). -/
def get_builtin : ClauseDB → Sig → Option Int
  | .root bs _, sig => alookup bs sig
  | .child p _, sig => p.get_builtin sig

/-- `ClauseDB._append_node`: append to the local array, return the new
index (`len(self)` before the append). -/
def append_node (db : ClauseDB) (node : DBNode) : ClauseDB × Nat :=
  (db.setLayer { db.layer with nodes := db.layer.nodes ++ [node] }, db.length)

/-- `ClauseDB._set_node`: update a local node in place.  The source raises an
`IndexError` for an index below the offset; no modelled call site reaches
that branch (all call sites first obtain the index from a `create=True`
`_add_head`, which always yields a local index), so it is a no-op here. -/
def set_node (db : ClauseDB) (index : Nat) (node : DBNode) : ClauseDB :=
  if index < db.offset then db
  else db.setLayer { db.layer with nodes := db.layer.nodes.set (index - db.offset) node }

/-- `ClauseDB._set_head`. -/
def set_head (db : ClauseDB) (sig : Sig) (index : Nat) : ClauseDB :=
  db.setLayer { db.layer with heads := aset db.layer.heads sig index }

/-- `ClauseDB.get_reserved_names`: the set `{FUNCTOR_CHOICE, FUNCTOR_BODY}`. -/
def get_reserved_names : List String := ["choice", "body"]

/-- `ClauseDB.is_reserved_name`.  The source reads
`return name is self.get_reserved_names()`: it compares the name string with a
freshly built set object by identity (`is`), not membership (`in`), so the
comparison is false for every name. -/
def is_reserved_name (_name : String) : Bool := false

/-- Modelled from the spec: the reserved-name check as the spec states it
("redefining a reserved name ... raises a dedicated access error"), i.e.
membership of the functor in the reserved-name set.  Kept separate from
`is_reserved_name`, which embeds the source's actual behaviour. -/
def is_reserved_name_spec (name : String) : Bool :=
  name ∈ get_reserved_names

/-- Errors raised by the database operations: `AccessError` for reserved or
builtin redefinition, plus a marker for source constructs outside the model
(variable literals, `findall`-style local scopes, `consult`). -/
inductive DBError where
  | accessReserved
  | accessBuiltin
  | unsupported
deriving DecidableEq

/-- `ClauseDB._add_head`: reserved-name check, builtin check (an
`AccessError` when a builtin signature is redefined with `create=True`; the
builtin's identifier when merely referenced), then head lookup — creating a
fresh `define` node, an empty placeholder, or the parent-override `define`
copy with redirection, as in the source. -/
def add_head (db : ClauseDB) (functor : String) (arity : Nat) (create : Bool) :
    Except DBError (ClauseDB × Int) :=
  if is_reserved_name functor then .error .accessReserved
  else
    match db.get_builtin ⟨functor, arity⟩ with
    | some b => if create then .error .accessBuiltin else .ok (db, b)
    | none =>
      match db.get_head ⟨functor, arity⟩ with
      | none =>
          if create then
            let (db, idx) := db.append_node (.define functor arity [])
            .ok (db.set_head ⟨functor, arity⟩ idx, idx)
          else
            let (db, idx) := db.append_node .empty
            .ok (db.set_head ⟨functor, arity⟩ idx, idx)
      | some node =>
          if create ∧ node < db.offset then
            let existing := db.get_node node
            let clauses := (existing.getD .empty).nodeChildren
            let (db, idx) := db.append_node (.define functor arity clauses)
            let db := db.setLayer
              { db.layer with redirect := aset db.layer.redirect node idx }
            .ok (db.set_head ⟨functor, arity⟩ idx, idx)
          else .ok (db, node)

/-- `ClauseDB._add_define_node`: obtain (or create) the `define` node for the
head via `_add_head(create=True)` and append the child to its candidate
index; an empty placeholder left by an earlier `create=False` lookup is
upgraded to a `define` node first. -/
def add_define_node (db : ClauseDB) (functor : String) (arity : Nat)
    (childnode : Nat) : Except DBError (ClauseDB × Nat) := do
  let (db, defineIndex) ← db.add_head functor arity true
  let di := defineIndex.toNat
  match db.get_node di with
  | some (.define f a ch) =>
      .ok (db.set_node di (.define f a (ch ++ [childnode])), childnode)
  | _ =>
      .ok (db.set_node di (.define functor arity [childnode]), childnode)

end ClauseDB

/-! ## Clause compiler (`ClauseDB._compile`, `add_fact`, `add_clause`)

The model covers the structures the claims exercise: conjunction,
disjunction, negation, plain literals, clauses and annotated disjunctions
(the route taken by probabilistic heads).  The `findall`-style local-scope
special case, `consult`/`use_module` rewriting, raw-variable literals
(`call/1` wrapping) and the name-scoping arguments (every modelled call
passes `scope=None`, for which `_scope_term` is the identity) are outside
the model.  Anonymous variables are not modelled: every variable of a source
term carries a name, which matches `_AutoDict`'s named-variable behaviour. -/

/-- `clausedb._AutoDict` restricted to named variables: an insertion-ordered
map from variable name to variable index; `len(variables)` is its size. -/
structure AutoDict where
  map : List (Nat × Nat) := []
deriving DecidableEq

/-- Number of variables seen so far (`_AutoDict.__len__`). -/
def AutoDict.size (d : AutoDict) : Nat := d.map.length

/-- `_AutoDict.__getitem__` for a named variable: return the known index or
assign the next fresh one. -/
def AutoDict.get (d : AutoDict) (k : Nat) : Nat × AutoDict :=
  match alookup d.map k with
  | some v => (v, d)
  | none => (d.map.length, ⟨d.map ++ [(k, d.map.length)]⟩)

mutual
/-- `Term.apply(variables)`: replace every variable by its index from the
dictionary, threading the dictionary through left to right. -/
def PTerm.applyA : PTerm → AutoDict → PTerm × AutoDict
  | .var n, d => let (v, d') := d.get n; (.var v, d')
  | .num i, d => (.num i, d)
  | .app f args, d =>
      let (args', d') := PTerm.applyListA args d
      (.app f args', d')

/-- `apply` over an argument list. -/
def PTerm.applyListA : List PTerm → AutoDict → List PTerm × AutoDict
  | [], d => ([], d)
  | t :: ts, d =>
      let (t', d') := t.applyA d
      let (ts', d'') := PTerm.applyListA ts d'
      (t' :: ts', d'')
end

/-- A clause head: functor, arguments and the optional probability
annotation of the head term. -/
structure PHead where
  functor : String
  args : List PTerm
  probability : Option PTerm := none
deriving DecidableEq

/-- Apply an `_AutoDict` renaming to a head (the source applies `Term.apply`
to the head term, which renames the arguments and the probability). -/
def PHead.applyA (h : PHead) (d : AutoDict) : PHead × AutoDict :=
  let (args', d) := PTerm.applyListA h.args d
  match h.probability with
  | none => ({ h with args := args' }, d)
  | some p =>
      let (p', d) := p.applyA d
      ({ h with args := args', probability := some p' }, d)

/-- The term sans probability (`with_probability(None)`): the plain head term. -/
def PHead.term (h : PHead) : PTerm := .app h.functor h.args

/-- The source structures fed to `_compile`: `And`, `Or`, `Not`, plain `Term`
literals, `Clause` and `AnnotatedDisjunction`. -/
inductive PStruct where
  | lit (t : PTerm)
  | conj (a b : PStruct)
  | disj (a b : PStruct)
  | neg (a : PStruct)
  | clause (head : PHead) (body : PStruct)
  | annDisj (heads : List PHead) (body : PStruct)

namespace ClauseDB

/-- `ClauseDB._add_call_node` (with `scope=None`): apply the variable
renaming, resolve the head with `_add_head(create=False)` and append the
`call` node.  Only compound literals are modelled (a raw-variable literal is
rewritten to `call/1` by the source, outside the model). -/
def add_call_node (db : ClauseDB) (t : PTerm) (d : AutoDict) :
    Except DBError (ClauseDB × AutoDict × Nat) := do
  let (t', d) := t.applyA d
  match t' with
  | .app f args =>
      let (db, defnode) ← db.add_head f args.length false
      let (db, idx) := db.append_node (.call (.app f []) args defnode)
      .ok (db, d, idx)
  | _ => .error .unsupported

/-- `ClauseDB._add_clause_node`: append the `clause` node and register it
under the head's definition. -/
def add_clause_node (db : ClauseDB) (head : PHead) (body : Nat)
    (varcount : Nat) (group : Option Nat) :
    Except DBError (ClauseDB × Nat) := do
  let (db, clauseNode) := db.append_node
    (.clause head.functor head.args head.probability body varcount group)
  db.add_define_node head.functor head.args.length clauseNode

/-- The per-head loop of the annotated-disjunction branch of `_compile`:
for the `choice`-numbered head, append the `choice` node, the call to it, the
call to the shared body, conjoin the two calls and add the head clause tagged
with the group. -/
def compileADHead (db : ClauseDB) (group : Nat) (bodyFunctor : String)
    (bodyHeadArgs : List PTerm) (bodyArgs : List PTerm) (clauseBody : Int)
    (bodyCount : Nat) (choice : Nat) (head : PHead) :
    Except DBError ClauseDB := do
  let choiceFunctor : PTerm :=
    .app "choice" [.num (Int.ofNat group), .num (Int.ofNat choice), head.term]
  let (db, choiceNode) := db.append_node
    (.choice choiceFunctor bodyArgs head.probability group choice)
  let (db, choiceCall) := db.append_node
    (.call choiceFunctor bodyArgs (Int.ofNat choiceNode))
  let (db, bodyCall) := db.append_node
    (.call (.app bodyFunctor []) bodyHeadArgs clauseBody)
  let (db, choiceBody) := db.append_node (.conj bodyCall choiceCall)
  let (db, _) ← db.add_clause_node head choiceBody bodyCount (some group)
  .ok db

/-- Fold `compileADHead` over the heads with their choice numbers. -/
def compileADHeads (db : ClauseDB) (group : Nat) (bodyFunctor : String)
    (bodyHeadArgs : List PTerm) (bodyArgs : List PTerm) (clauseBody : Int)
    (bodyCount : Nat) (choice : Nat) :
    List PHead → Except DBError ClauseDB
  | [] => .ok db
  | h :: hs => do
      let db ← compileADHead db group bodyFunctor bodyHeadArgs bodyArgs
        clauseBody bodyCount choice h
      compileADHeads db group bodyFunctor bodyHeadArgs bodyArgs clauseBody
        bodyCount (choice + 1) hs

/-- Sequentially apply the `_AutoDict` renaming to a list of heads. -/
def applyHeads : List PHead → AutoDict → List PHead × AutoDict
  | [], d => ([], d)
  | h :: hs, d =>
      let (h', d) := h.applyA d
      let (hs', d') := applyHeads hs d
      (h' :: hs', d')

mutual
/-- `ClauseDB._compile` (with `scope=None`): returns the compiled node index
(`none` for an annotated disjunction, which returns `None` in the source). -/
def compile (db : ClauseDB) : PStruct → AutoDict →
    Except DBError (ClauseDB × AutoDict × Option Nat)
  | .conj a b, d => do
      let (db, d, op1) ← db.compile a d
      let (db, d, op2) ← db.compile b d
      match op1, op2 with
      | some i1, some i2 =>
          let (db, idx) := db.append_node (.conj i1 i2)
          .ok (db, d, some idx)
      | _, _ => .error .unsupported
  | .disj a b, d => do
      let (db, d, op1) ← db.compile a d
      let (db, d, op2) ← db.compile b d
      match op1, op2 with
      | some i1, some i2 =>
          let (db, idx) := db.append_node (.disj i1 i2)
          .ok (db, d, some idx)
      | _, _ => .error .unsupported
  | .neg a, d => do
      let (db, d, op1) ← db.compile a d
      match op1 with
      | some i1 =>
          let (db, idx) := db.append_node (.neg i1)
          .ok (db, d, some idx)
      | _ => .error .unsupported
  | .lit t, d => do
      let (db, d, idx) ← db.add_call_node t d
      .ok (db, d, some idx)
  | .clause head body, d =>
      match head.probability with
      | some _ => db.compileAD [head] body d
      | none => do
          let (head', d) := head.applyA d
          let (db, d, bodyNode) ← db.compile body d
          match bodyNode with
          | some bn => do
              let (db, idx) ← db.add_clause_node head' bn d.size none
              .ok (db, d, some idx)
          | none => .error .unsupported
  | .annDisj heads body, d => db.compileAD heads body d

/-- The `AnnotatedDisjunction` branch of `_compile`: rename the heads, fix
the group id (the length of the local node array), compile the shared body
once, build the shared body clause `body_N(group, head, vars...) :- body`,
then wire each head through `compileADHead`; the branch returns `None`. -/
def compileAD (db : ClauseDB) (heads : List PHead) (body : PStruct)
    (d : AutoDict) : Except DBError (ClauseDB × AutoDict × Option Nat) := do
  let (newHeads, d) := applyHeads heads d
  let group := db.layer.nodes.length
  let (db, d, bodyNodeOpt) ← db.compile body d
  match bodyNodeOpt with
  | none => .error .unsupported
  | some bodyNode =>
      let bodyCount := d.size
      let bodyArgs := (List.range d.size).map PTerm.var
      let bodyFunctor := "body_" ++ toString db.length
      let headsList : PTerm :=
        match newHeads with
        | [h] => h.term
        | _ => .app "multi" []
      let bodyHeadArgs := .num (Int.ofNat group) :: headsList :: bodyArgs
      let bodyHead : PHead := ⟨bodyFunctor, bodyHeadArgs, none⟩
      let (db, _) ← db.add_clause_node bodyHead bodyNode d.size none
      let (db, clauseBody) ← db.add_head bodyFunctor bodyHeadArgs.length true
      let db ← compileADHeads db group bodyFunctor bodyHeadArgs bodyArgs
        clauseBody bodyCount 0 newHeads
      .ok (db, d, none)
end

/-- `ClauseDB.add_clause` (with `scope=None`): compile the clause. -/
def add_clause (db : ClauseDB) (head : PHead) (body : PStruct) :
    Except DBError (ClauseDB × Option Nat) := do
  let (db, _, idx) ← db.compile (.clause head body) {}
  .ok (db, idx)

/-- The variable dictionary `add_fact` builds to count the term's variables
(`variables = _AutoDict(); term.apply(variables)`: the traversal visits the
arguments and the probability annotation). -/
def factVarDict (args : List PTerm) (probability : Option PTerm) : AutoDict :=
  let d : AutoDict := {}
  let (_, d) := PTerm.applyListA args d
  match probability with
  | none => d
  | some p => (p.applyA d).2

/-- `ClauseDB.add_fact` (with `scope=None`): count the variables of the term;
a variable-free term is stored as a `fact` node registered under its
definition, and a term with variables is instead added as the clause
`term :- true`. -/
def add_fact (db : ClauseDB) (functor : String) (args : List PTerm)
    (probability : Option PTerm) : Except DBError (ClauseDB × Option Nat) :=
  let d := factVarDict args probability
  if d.size = 0 then do
    let (db, factNode) := db.append_node (.fact functor args probability)
    let (db, idx) ← db.add_define_node functor args.length factNode
    .ok (db, some idx)
  else
    db.add_clause ⟨functor, args, probability⟩ (.lit (.app "true" []))

end ClauseDB

/-! ## Clause index trie (`src/problog/clausedb.py`, classes `ClauseIndexNew`
and `TermTrieNode`)

The trie is embedded with explicit fuel for its recursions (the source
recursions terminate on the acyclic trie; fuel makes them structurally
recursive here).  `TrieItemTuple` — a pair of item id and insertion order,
equal when the ids are equal — is a pair of naturals with set insertion and
union keyed on the first component.  Python `str(functor)` labels are
modelled by `PTerm.functorLabel`; the source's raw-functor comparisons inside
leaves distinguish an integer constant from a same-spelled quoted atom, a
distinction the model's printed labels merge (no claim touches it). -/

/-- Constructor kind comparison (`type(a) == type(b)` over `Var`, `Constant`,
`Term`). -/
def PTerm.sameCtor : PTerm → PTerm → Bool
  | .var _, .var _ => true
  | .num _, .num _ => true
  | .app _ _, .app _ _ => true
  | _, _ => false

/-- Raw functor equality (`a.functor == b.functor`); only read under a
same-constructor guard. -/
def PTerm.funEq : PTerm → PTerm → Bool
  | .var a, .var b => a == b
  | .num a, .num b => a == b
  | .app f _, .app g _ => f == g
  | _, _ => false

/-- `isinstance(t, Var)`. -/
def PTerm.isVarT : PTerm → Bool
  | .var _ => true
  | _ => false

mutual
/-- Term weight, used to size the fuel of the stack-rewriting loops: every
loop step either pops a symbol or replaces it by its arguments, both of
which strictly decrease the summed weight of the stack. -/
def PTerm.weight : PTerm → Nat
  | .var _ => 1
  | .num _ => 1
  | .app _ args => 1 + PTerm.weightList args + args.length

/-- Summed weight of a term list. -/
def PTerm.weightList : List PTerm → Nat
  | [] => 0
  | t :: ts => t.weight + PTerm.weightList ts
end

/-- Argument list of a term (`Var` and `Constant` have none). -/
def PTerm.argsOf : PTerm → List PTerm
  | .app _ args => args
  | _ => []

/-- `TermTrieNode._add_args_to_stack`: push the term's arguments so the first
argument is popped next (the source extends the list with the reversed
arguments and pops from the end; here the stack top is the list head). -/
def addArgsToStack (t : PTerm) (stack : List PTerm) : List PTerm :=
  t.argsOf ++ stack

/-- Pop the stack top and descend into it (`x = stack.pop()` followed by
`_add_args_to_stack(x, stack)`). -/
def popDescend (stack : List PTerm) : PTerm × List PTerm :=
  match stack with
  | [] => (.app "" [], [])
  | x :: rest => (x, addArgsToStack x rest)

/-- `set.add` on `TrieItemTuple`s: keyed on the item id, keeping the existing
entry on a duplicate. -/
def insertItem (l : List (Nat × Nat)) (it : Nat × Nat) : List (Nat × Nat) :=
  if l.any (fun p => p.1 = it.1) then l else l ++ [it]

/-- `set` union (`|=`) on `TrieItemTuple`s. -/
def iunion (a b : List (Nat × Nat)) : List (Nat × Nat) :=
  b.foldl insertItem a

/-- `TermTrieNode`: edge label (functor as printed, arity), sorted child
list, the distinguished variable child, the optional remaining-argument
stack (`None` for intermediate and virgin nodes), the item set and the
root's insertion counter.  The root carries the empty label. -/
inductive TrieNode where
  | mk (functorL : String) (arityL : Nat) (children : List TrieNode)
      (varChild : Option TrieNode) (argStack : Option (List PTerm))
      (item : List (Nat × Nat)) (itemNb : Nat)

namespace TrieNode

/-- Edge functor label. -/
def functorL : TrieNode → String
  | .mk f _ _ _ _ _ _ => f

/-- Edge arity label. -/
def arityL : TrieNode → Nat
  | .mk _ a _ _ _ _ _ => a

/-- Child list. -/
def children : TrieNode → List TrieNode
  | .mk _ _ c _ _ _ _ => c

/-- Variable child. -/
def varChild : TrieNode → Option TrieNode
  | .mk _ _ _ v _ _ _ => v

/-- Remaining-argument stack. -/
def argStack : TrieNode → Option (List PTerm)
  | .mk _ _ _ _ s _ _ => s

/-- Item set. -/
def item : TrieNode → List (Nat × Nat)
  | .mk _ _ _ _ _ i _ => i

/-- Insertion counter (used on the root). -/
def itemNb : TrieNode → Nat
  | .mk _ _ _ _ _ _ n => n

instance : Inhabited TrieNode := ⟨.mk "" 0 [] none none [] 0⟩

/-- The virgin root (`TermTrieNode(functor=None, arity=None, arg_stack=None,
item=None)`). -/
def rootNode : TrieNode := .mk "" 0 [] none none [] 0

/-- `TermTrieNode.create_leaf`. -/
def create_leaf (f : String) (a : Nat) (stack : List PTerm)
    (items : List (Nat × Nat)) : TrieNode :=
  .mk f a [] none (some stack) items 0

/-- `TermTrieNode.is_leaf`. -/
def is_leaf (n : TrieNode) : Bool :=
  n.argStack.isSome && n.children.isEmpty && n.varChild.isNone

/-- `TermTrieNode.is_empty`. -/
def is_empty (n : TrieNode) : Bool :=
  n.argStack.isNone && n.children.isEmpty && n.varChild.isNone

/-- `TermTrieNode._term_binary_search` (bisect-left on the sorted child
list by arity, then functor label); the loop runs with explicit fuel. -/
def binSearchAux (cs : List TrieNode) (f : String) (a : Nat) :
    Nat → Nat → Nat → Nat
  | _, lo, 0 => lo
  | hi, lo, fuel + 1 =>
      if lo < hi then
        let mid := (lo + hi) / 2
        let c := cs.getD mid default
        if c.arityL < a ∨ (c.arityL = a ∧ c.functorL < f) then
          binSearchAux cs f a hi (mid + 1) fuel
        else
          binSearchAux cs f a mid lo fuel
      else lo

/-- Entry point of the binary search. -/
def term_binary_search (cs : List TrieNode) (f : String) (a : Nat) : Nat :=
  binSearchAux cs f a cs.length 0 (cs.length + 1)

/-- The matching loop inside the leaf branch of `_find`: while both stacks
are nonempty and the popped pair is compatible (either one a variable, or
equal functor and arity), descend; returns the final stacks. -/
def leafScan : Nat → PTerm → PTerm → List PTerm → List PTerm →
    List PTerm × List PTerm
  | 0, _, _, cStack, stack => (cStack, stack)
  | fuel + 1, cNext, nxt, cStack, stack =>
      if cStack ≠ [] ∧ stack ≠ [] ∧
          (cNext.isVarT ∨ nxt.isVarT ∨
            (cNext.arity = nxt.arity ∧ cNext.functorLabel = nxt.functorLabel)) then
        let (cStack, stack) :=
          if ¬ (cNext.isVarT ∨ nxt.isVarT) then
            (addArgsToStack cNext cStack, addArgsToStack nxt stack)
          else (cStack, stack)
        match cStack, stack with
        | c :: cs, n :: ns => leafScan fuel c n cs ns
        | _, _ => (cStack, stack)
      else (cStack, stack)

/-- `TermTrieNode._find` with fuel (the `for node in self.children` loops
are the `foldl` unions, searched left to right as in the source). -/
def findAux : Nat → TrieNode → List PTerm → Nat → List (Nat × Nat)
  | 0, _, _, _ => []
  | fuel + 1, n, stack, skip =>
      if n.is_leaf then
        let cStack := (n.argStack.getD []).drop skip
        if stack.length ≠ cStack.length then []
        else if stack.length = 0 then n.item
        else
          match cStack, stack with
          | c :: cs, s :: ss =>
              let scanFuel := c.weight + PTerm.weightList cs +
                s.weight + PTerm.weightList ss + 1
              let (cFin, sFin) := leafScan scanFuel c s cs ss
              if cFin = [] ∧ sFin = [] then n.item else []
          | _, _ => []
      else
        if skip > 0 then
          let fromChildren := (n.children.map
            (fun c => findAux fuel c stack (skip - 1 + c.arityL))).foldl iunion []
          match n.varChild with
          | some vc => iunion fromChildren (findAux fuel vc stack (skip - 1 + vc.arityL))
          | none => fromChildren
        else
          match stack with
          | [] => []
          | firstArg :: rest =>
              let base :=
                match n.varChild with
                | some vc => findAux fuel vc rest 0
                | none => []
              if firstArg.isVarT then
                (n.children.map (fun c => findAux fuel c rest c.arityL)).foldl iunion base
              else
                let f := firstArg.functorLabel
                let a := firstArg.arity
                let idx := term_binary_search n.children f a
                if h : idx < n.children.length then
                  let matching := n.children.get ⟨idx, h⟩
                  if matching.arityL = a ∧ matching.functorL = f then
                    iunion base (findAux fuel matching (addArgsToStack firstArg rest) 0)
                  else base
                else base

/-- The unrolling loop of `_expand_to_intermediate`: peel matching argument
pairs off both stacks, recording the labels of the intermediate nodes
created; returns the labels in creation order, the final popped pair and the
final stacks. -/
def expandScan : Nat → PTerm → PTerm → List PTerm → List PTerm →
    List PTerm × PTerm × PTerm × List PTerm × List PTerm
  | 0, newNext, currNext, newStack, currStack =>
      ([], newNext, currNext, newStack, currStack)
  | fuel + 1, newNext, currNext, newStack, currStack =>
      if newStack ≠ [] ∧ currStack ≠ [] ∧ newNext.sameCtor currNext ∧
          ((newNext.funEq currNext ∧ newNext.arity = currNext.arity) ∨
            (newNext.isVarT ∧ currNext.isVarT)) then
        let (nn, newStack') := popDescend newStack
        let (cc, currStack') := popDescend currStack
        let (chain, a, b, s1, s2) := expandScan fuel nn cc newStack' currStack'
        (currNext :: chain, a, b, s1, s2)
      else ([], newNext, currNext, newStack, currStack)

/-- Attach the two fresh leaves at the end of the recorded chain and wrap the
chain back up; returns the child list and variable child of the top level
(the node being expanded). -/
def buildSplit : List PTerm → TrieNode → TrieNode → PTerm → PTerm →
    List TrieNode × Option TrieNode
  | [], c1, c2, fCurr, fNew =>
      if fCurr.isVarT then ([c2], some c1)
      else if fNew.isVarT then ([c1], some c2)
      else
        let base := [c1]
        let idx := term_binary_search base c2.functorL c2.arityL
        (base.take idx ++ c2 :: base.drop idx, none)
  | lbl :: rest, c1, c2, fCurr, fNew =>
      let (ch, vc) := buildSplit rest c1 c2 fCurr fNew
      let inner : TrieNode := .mk lbl.functorLabel lbl.arity ch vc none [] 0
      if lbl.isVarT then ([], some inner) else ([inner], none)

/-- `TermTrieNode._expand_to_intermediate` on a leaf: either the stacks are
equivalent (the item joins the leaf's set and the leaf is restored) or the
leaf becomes an intermediate node over a chain ending in two fresh leaves. -/
def expandToIntermediate (self : TrieNode) (stack : List PTerm)
    (it : Nat × Nat) : TrieNode :=
  match stack with
  | [] =>
      .mk self.functorL self.arityL self.children self.varChild self.argStack
        (insertItem self.item it) self.itemNb
  | _ =>
      let backup := self.argStack.getD []
      let (newNext, newStack) := popDescend stack
      let (currNext, currStack) := popDescend backup
      let fuel := PTerm.weightList stack + PTerm.weightList backup + 1
      let (chain, fNew, fCurr, fNewStack, fCurrStack) :=
        expandScan fuel newNext currNext newStack currStack
      let equivalentStacks :=
        fNewStack = [] ∧ fCurrStack = [] ∧ fNew.funEq fCurr ∧
          fNew.arity = fCurr.arity
      if equivalentStacks ∨ (fNew.isVarT ∧ fCurr.isVarT) then
        .mk self.functorL self.arityL [] none (some backup)
          (insertItem self.item it) self.itemNb
      else
        let c1 := create_leaf fCurr.functorLabel fCurr.arity fCurrStack self.item
        let c2 := create_leaf fNew.functorLabel fNew.arity fNewStack [it]
        let (ch, vc) := buildSplit chain c1 c2 fCurr fNew
        .mk self.functorL self.arityL ch vc none [] self.itemNb

/-- `TermTrieNode._add_term_args` with fuel (the recursion descends into a
strict subnode at every step, so any fuel past the node count is enough). -/
def addTermArgs : Nat → TrieNode → List PTerm → (Nat × Nat) → TrieNode
  | 0, n, _, _ => n
  | fuel + 1, n, stack, it =>
      if n.is_empty then
        .mk n.functorL n.arityL [] none (some stack) [it] n.itemNb
      else if n.is_leaf then
        expandToIntermediate n stack it
      else
        match stack with
        | [] => n
        | firstArg :: rest =>
            let stack' := addArgsToStack firstArg rest
            if firstArg.isVarT then
              match n.varChild with
              | some vc =>
                  .mk n.functorL n.arityL n.children
                    (some (addTermArgs fuel vc stack' it)) n.argStack n.item n.itemNb
              | none =>
                  .mk n.functorL n.arityL n.children
                    (some (create_leaf firstArg.functorLabel firstArg.arity stack' [it]))
                    n.argStack n.item n.itemNb
            else
              let f := firstArg.functorLabel
              let a := firstArg.arity
              let idx := term_binary_search n.children f a
              if h : idx < n.children.length then
                let matching := n.children.get ⟨idx, h⟩
                if matching.arityL = a ∧ matching.functorL = f then
                  .mk n.functorL n.arityL
                    (n.children.set idx (addTermArgs fuel matching stack' it))
                    n.varChild n.argStack n.item n.itemNb
                else
                  let newChild := create_leaf f firstArg.arity stack' [it]
                  .mk n.functorL n.arityL
                    (n.children.take idx ++ newChild :: n.children.drop idx)
                    n.varChild n.argStack n.item n.itemNb
              else
                let newChild := create_leaf f firstArg.arity stack' [it]
                .mk n.functorL n.arityL
                  (n.children.take idx ++ newChild :: n.children.drop idx)
                  n.varChild n.argStack n.item n.itemNb

mutual
/-- Number of trie nodes, used to size the recursion fuel (every recursive
call of `_find` and `_add_term_args` descends into a strict subnode). -/
def nodeCount : TrieNode → Nat
  | .mk _ _ cs vc _ _ _ => 1 + nodeCountList cs + nodeCountOpt vc

/-- Node count of a child list. -/
def nodeCountList : List TrieNode → Nat
  | [] => 0
  | c :: cs => nodeCount c + nodeCountList cs

/-- Node count of an optional child. -/
def nodeCountOpt : Option TrieNode → Nat
  | none => 0
  | some c => nodeCount c
end

/-- `TermTrieNode.add_term`: bump the insertion counter and insert the term
tagged with it. -/
def add_term (n : TrieNode) (t : PTerm) (itemId : Nat) : TrieNode :=
  let nb := n.itemNb + 1
  let n := TrieNode.mk n.functorL n.arityL n.children n.varChild n.argStack n.item nb
  addTermArgs (nodeCount n + 1) n [t] (itemId, nb)

/-- Stable insertion sort by the insertion counter (`sorted(...,
key=lambda item_tuple: item_tuple[1])`; Python's sort is stable, as is
inserting after equal keys). -/
def insertByOrder (x : Nat × Nat) : List (Nat × Nat) → List (Nat × Nat)
  | [] => [x]
  | y :: ys => if y.2 ≤ x.2 then y :: insertByOrder x ys else x :: y :: ys

/-- Entry point of the stable sort. -/
def sortByOrder : List (Nat × Nat) → List (Nat × Nat)
  | [] => []
  | x :: xs => insertByOrder x (sortByOrder xs)

/-- `TermTrieNode.find`: run `_find` on the singleton stack, sort by the
insertion counter, strip the counters. -/
def find (n : TrieNode) (t : PTerm) : List Nat :=
  let result := sortByOrder (findAux (nodeCount n + PTerm.weight t + 1) n [t] 0)
  result.map (fun p => p.1)

end TrieNode

/-- `clausedb.ClauseIndexNew` (the default clause index, `ClauseIndex =
ClauseIndexNew`): the underlying list of appended clause-node indices, the
trie, and the erased set. -/
structure ClauseIndexNew where
  items : List Nat := []
  index : TrieNode := TrieNode.rootNode
  erased : List Nat := []

/-- Head term of a node as rebuilt by `ClauseIndexNew.append`
(`Term(node.functor, *node.args)`); nodes without arguments fields (the
`define` placeholder kinds) have none, and a compound `choice` functor is
flattened to its label. -/
def DBNode.headTerm : DBNode → Option PTerm
  | .fact f args _ => some (.app f args)
  | .clause f args _ _ _ _ => some (.app f args)
  | .choice f args _ _ _ => some (.app f.functorLabel args)
  | .call f args _ => some (.app f.functorLabel args)
  | _ => none

/-- Python `TypeError` raised by `list -= set`. -/
inductive PyError where
  | typeErrorListMinusSet
deriving DecidableEq

namespace ClauseIndexNew

/-- `ClauseIndexNew.append`: append to the list part and insert the node's
head term into the trie. -/
def append (db : ClauseDB) (ci : ClauseIndexNew) (it : Nat) : ClauseIndexNew :=
  let ci := { ci with items := ci.items ++ [it] }
  match (db.get_node it).bind DBNode.headTerm with
  | some t => { ci with index := ci.index.add_term t it }
  | none => ci

/-- `ClauseIndexNew.find`: run the trie lookup, then subtract the erased
set.  The trie returns a plain Python `list` (sorted by insertion order),
and `result -= self.__erased` on a list raises a `TypeError` whenever the
erased set is nonempty. -/
def find (ci : ClauseIndexNew) (t : PTerm) : Except PyError (List Nat) :=
  let result := ci.index.find t
  if ci.erased ≠ [] then .error .typeErrorListMinusSet
  else .ok result

/-- `ClauseIndexNew.erase`: accumulate into the erased set. -/
def erase (ci : ClauseIndexNew) (its : List Nat) : ClauseIndexNew :=
  { ci with erased := ci.erased ++ its.filter (fun i => ¬ i ∈ ci.erased) }

end ClauseIndexNew

/-! ## Ground-formula sink (external; `problog/formula.py` is not under
`src/`)

Modelled from the spec §4.4: `add_atom(id, probability, group) -> ref`,
`add_and(refs) -> ref`, `add_or(refs, finalized) -> ref`,
`add_not(ref) -> ref`, each returning a reference; references are modelled
symbolically as the formula they denote.  `add_disjunct(ref, extra)` mutates
an unfinalized or-node in place; the symbolic model does not track that
mutation (no claim reads the mutated node back).  The engine's literal `0`
reference ("no ground dependency", deterministically true) is `GRef.zero`;
the Python `None` reference appears as `Option.none` at the places where the
engine itself tests for it. -/

/-- Atom identifiers handed to `add_atom`: the fact's node index
(`_eval_fact`) or the `(group, ground-args, choice)` triple of a choice
(`_eval_choice`). -/
inductive AtomId where
  | factAtom (node : Nat)
  | choiceAtom (group : Nat) (args : List PTerm) (choiceIdx : Nat)

/-- Symbolic ground-formula references (modelled from the spec §4.4). -/
inductive GRef where
  | zero
  | atom (id : AtomId) (probability : Option PTerm)
      (group : Option (Nat × List PTerm))
  | gand (a b : GRef)
  | gor (refs : List GRef) (readonly : Bool)
  | gnot (r : GRef)

namespace Sink

/-- `add_atom` (modelled from the spec §4.4): one reference per identifier,
so equal identifiers share one atom. -/
def add_atom (id : AtomId) (probability : Option PTerm)
    (group : Option (Nat × List PTerm)) : GRef :=
  .atom id probability group

/-- `add_and` (modelled from the spec §4.4). -/
def add_and (a b : GRef) : GRef := .gand a b

/-- `add_or` (modelled from the spec §4.4); `readonly` is the complement of
the spec's `finalized` flag as the source passes it. -/
def add_or (refs : List GRef) (readonly : Bool) : GRef := .gor refs readonly

/-- `add_not` (modelled from the spec §4.4). -/
def add_not (r : GRef) : GRef := .gnot r

end Sink

/-! ## Event traces

A listener of the event engine receives `newResult(result, ground_node)`
and `complete()` calls; a trace records them in order.  The protocol of
§4.3 — zero or more results, then exactly one completion — is `wellFormed`. -/

/-- One event as received by a listener. -/
inductive Evt (ρ γ : Type) where
  | result (r : ρ) (g : γ)
  | complete

/-- The result/completion protocol: some results followed by exactly one
completion. -/
def wellFormed {ρ γ : Type} (t : List (Evt ρ γ)) : Prop :=
  ∃ rs : List (ρ × γ), t = rs.map (fun p => Evt.result p.1 p.2) ++ [Evt.complete]

/-- Number of completion events in a trace. -/
def completeCount {ρ γ : Type} : List (Evt ρ γ) → Nat
  | [] => 0
  | .complete :: t => completeCount t + 1
  | .result _ _ :: t => completeCount t

/-! ## `_eval_choice` (engine_event.py, lines 130-145) -/

/-- Errors of the grounding engine relevant to the claims. -/
inductive GroundingError where
  | nonGroundProbabilisticClause
deriving DecidableEq

mutual
/-- `problog.engine.instantiate` (not under `src/`; modelled from the spec
§4.1's substitution contract): replace each variable reference by the
corresponding context entry, unbound entries staying variables. -/
def instantiateT : PTerm → List PTerm → PTerm
  | .var n, ctx => (ctx.get? n).getD (.var n)
  | .num i, _ => .num i
  | .app f args, ctx => .app f (instantiateList args ctx)

/-- `instantiate` over an argument list. -/
def instantiateList : List PTerm → List PTerm → List PTerm
  | [], _ => []
  | t :: ts, ctx => instantiateT t ctx :: instantiateList ts ctx
end

/-- `EventBasedEngine._eval_choice`: fail with the dedicated error unless the
instantiated call arguments are fully ground; otherwise instantiate the
probability, create the ground atom identified by `(group, result, choice)`
in the mutual-exclusivity group `(group, result)`, and send exactly one
result followed by the completion. -/
def eval_choice (group : Nat) (choiceIdx : Nat) (probability : Option PTerm)
    (callArgs : List PTerm) :
    Except GroundingError (List (Evt (List PTerm) (Option GRef))) :=
  let result := callArgs
  if ¬ PTerm.isGroundList result then .error .nonGroundProbabilisticClause
  else
    let probability := probability.map (fun p => instantiateT p callArgs)
    let ground_node := Sink.add_atom (.choiceAtom group result choiceIdx)
      probability (some (group, result))
    .ok [.result result (some ground_node), .complete]

/-! ## `ProcessOr` (engine_event.py, lines 304-331) -/

/-- State of a `ProcessOr` node: the remaining completion count (an integer,
as the source decrements below zero on protocol violations) and the
`isComplete` latch of `ProcessNode.notifyComplete`. -/
structure OrState where
  count : Int
  isComplete : Bool

/-- `ProcessOr.__init__`: a zero count sends the completion immediately. -/
def orInit {ρ γ : Type} (count : Nat) : OrState × List (Evt ρ γ) :=
  if count = 0 then ({ count := 0, isComplete := true }, [.complete])
  else ({ count := count, isComplete := false }, [])

/-- One event handled by a `ProcessOr`: results are forwarded; a completion
decrements the count and fires the (latched) completion at zero or below. -/
def orStep {ρ γ : Type} (s : OrState) : Evt ρ γ → OrState × List (Evt ρ γ)
  | .result r g => (s, [.result r g])
  | .complete =>
      let c := s.count - 1
      if c ≤ 0 ∧ ¬ s.isComplete then ({ count := c, isComplete := true }, [.complete])
      else ({ s with count := c }, [])

/-- Run a `ProcessOr` over an incoming trace, collecting its output. -/
def orRunAux {ρ γ : Type} (s : OrState) : List (Evt ρ γ) → OrState × List (Evt ρ γ)
  | [] => (s, [])
  | e :: t =>
      let (s', out) := orStep s e
      let (s'', outs) := orRunAux s' t
      (s'', out ++ outs)

/-- A `ProcessOr` created for `count` children and fed the trace `t`: the
initial emission followed by the processed events. -/
def orRun {ρ γ : Type} (count : Nat) (t : List (Evt ρ γ)) : List (Evt ρ γ) :=
  let (s, out0) := orInit count
  out0 ++ (orRunAux s t).2

/-! ## `ProcessNot` (engine_event.py, lines 333-364) -/

/-- Run a `ProcessNot` node over the child's trace: buffer every non-`None`
ground reference; on completion, negate the disjunction of the buffer (or
succeed with the `0` reference when the buffer is empty) and complete.  The
accumulators are the buffer and the `notifyComplete` latch. -/
def notRun {ρ : Type} (ctx : ρ) (buffer : List GRef) (ic : Bool) :
    List (Evt ρ (Option GRef)) → List (Evt ρ (Option GRef))
  | [] => []
  | .result _ g :: t =>
      let buffer := match g with
        | some gr => buffer ++ [gr]
        | none => buffer
      notRun ctx buffer ic t
  | .complete :: t =>
      let resultPart :=
        match buffer with
        | [] => [Evt.result ctx (some GRef.zero)]
        | _ :: _ =>
            let or_node : Option GRef := some (Sink.add_not (Sink.add_or buffer true))
            match or_node with
            | some g => [Evt.result ctx (some g)]
            | none => []
      resultPart ++ (if ic then [] else [Evt.complete]) ++ notRun ctx buffer true t

/-! ## Conjunction: `ProcessLink` and `ProcessAnd` (engine_event.py, lines
366-408)

The engine evaluates the second conjunct by a direct synchronous call for
each result of the first (§5), so the spawned evaluation's whole trace is
handled inline before the next event of the first conjunct. -/

/-- Handle the trace of one spawned second-conjunct evaluation through its
`ProcessAnd`: results are conjoined with the first conjunct's reference and
forwarded to the parent; the completion reaches the `ProcessLink`, which
decrements its pending count and fires its completion exactly at zero.
Returns the parent-visible output, the new pending count, the link's
completion latch and the `ProcessAnd`'s completion latch. -/
def linkHandleB {ρ : Type} (g : GRef) :
    List (Evt ρ GRef) → Int → Bool → Bool →
    List (Evt ρ GRef) × Int × Bool × Bool
  | [], req, lic, aic => ([], req, lic, aic)
  | .result r2 g2 :: rest, req, lic, aic =>
      let out := Evt.result r2 (Sink.add_and g g2)
      let (outs, req', lic', aic') := linkHandleB g rest req lic aic
      (out :: outs, req', lic', aic')
  | .complete :: rest, req, lic, aic =>
      if aic then linkHandleB g rest req lic aic
      else
        let req := req - 1
        if req = 0 ∧ ¬ lic then
          let (outs, req', lic', aic') := linkHandleB g rest req true true
          (Evt.complete :: outs, req', lic', aic')
        else linkHandleB g rest req lic true

/-- Run a `ProcessLink` over the first conjunct's trace: each result bumps
the pending count and spawns the second conjunct (trace given by `B`); each
completion — the first conjunct's own or a spawned evaluation's — decrements
it, and the conjunction completes exactly when the count reaches zero. -/
def linkRun {ρ : Type} (req : Int) (lic : Bool)
    (B : ρ → List (Evt ρ GRef)) :
    List (Evt ρ GRef) → List (Evt ρ GRef)
  | [] => []
  | .result r g :: rest =>
      let req := req + 1
      let (outs, req', lic', _) := linkHandleB g (B r) req lic false
      outs ++ linkRun req' lic' B rest
  | .complete :: rest =>
      let req := req - 1
      if req = 0 ∧ ¬ lic then Evt.complete :: linkRun req true B rest
      else linkRun req lic B rest

/-- A conjunction node `(A, B)`: the `ProcessLink` starts with a pending
count of one (for the first conjunct). -/
def conjRun {ρ : Type} (aTrace : List (Evt ρ GRef))
    (B : ρ → List (Evt ρ GRef)) : List (Evt ρ GRef) :=
  linkRun 1 false B aTrace

/-! ## `ProcessDefine` (engine_event.py, lines 432-561)

The per-entry event machine: results dictionary (binding to the notified
reference, insertion-ordered), buffer (binding to the list of ground
references seen for it), cyclic flag and completion latch. -/

/-- The mutable state of one `ProcessDefine` cache entry. -/
structure DefMach (ρ : Type) where
  results : List (ρ × GRef) := []
  buffer : List (ρ × List GRef) := []
  cyclic : Bool := false
  isComplete : Bool := false

/-- Events handled by a `ProcessDefine`: a result or completion from its
candidate disjunction, or the cyclic flag being raised through the property
setter (by `propagateCyclic` or cycle detection). -/
inductive DefEvt (ρ : Type) where
  | newResult (r : ρ) (g : GRef)
  | complete
  | markCyclic

/-- `self.__buffer[res].append(ground_node)` on a `defaultdict(list)`. -/
def bufAdd {ρ : Type} [DecidableEq ρ] (buffer : List (ρ × List GRef)) (r : ρ)
    (g : GRef) : List (ρ × List GRef) :=
  match alookup buffer r with
  | some l => aset buffer r (l ++ [g])
  | none => buffer ++ [(r, [g])]

/-- `ProcessDefine._flush_buffer`: each buffered binding becomes one
disjunct — an `or` node over its references when there are several or when
flushing for a cycle (then left open, `readonly=False`), otherwise the
single reference itself — recorded in the results dictionary and notified. -/
def defFlushStep {ρ : Type} [DecidableEq ρ] (cycle : Bool)
    (acc : DefMach ρ × List (Evt ρ GRef)) (p : ρ × List GRef) :
    DefMach ρ × List (Evt ρ GRef) :=
  let node := if 1 < p.2.length ∨ cycle then Sink.add_or p.2 (!cycle)
    else p.2.headD GRef.zero
  ({ acc.1 with results := aset acc.1.results p.1 node },
    acc.2 ++ [Evt.result p.1 node])

/-- The flush loop over the buffered bindings. -/
def defFlush {ρ : Type} [DecidableEq ρ] (s : DefMach ρ) (cycle : Bool) :
    DefMach ρ × List (Evt ρ GRef) :=
  let (s', outs) := s.buffer.foldl (defFlushStep cycle) (s, [])
  ({ s' with buffer := [] }, outs)

/-- `ProcessDefine.newResult`: buffered while non-cyclic; once cyclic, a
repeated binding extends the recorded open or-node in the sink
(`add_disjunct`, a sink mutation with no event), and a new binding is
recorded as a fresh open or-node and notified immediately. -/
def defNewResult {ρ : Type} [DecidableEq ρ] (s : DefMach ρ) (r : ρ) (g : GRef) :
    DefMach ρ × List (Evt ρ GRef) :=
  if s.cyclic then
    match alookup s.results r with
    | some _ => (s, [])
    | none =>
        let result_node := Sink.add_or [g] false
        ({ s with results := s.results ++ [(r, result_node)] },
          [Evt.result r result_node])
  else ({ s with buffer := bufAdd s.buffer r g }, [])

/-- `ProcessDefine.complete`: flush the buffer, then `notifyComplete`
(latched: the completion is sent at most once). -/
def defComplete {ρ : Type} [DecidableEq ρ] (s : DefMach ρ) :
    DefMach ρ × List (Evt ρ GRef) :=
  let (s, outs) := defFlush s false
  if s.isComplete then (s, outs)
  else ({ s with isComplete := true }, outs ++ [Evt.complete])

/-- The `cyclic` property setter for value `True`: only a change triggers
`_cycle_detected`, which flushes the buffer in cycle mode. -/
def defMarkCyclic {ρ : Type} [DecidableEq ρ] (s : DefMach ρ) :
    DefMach ρ × List (Evt ρ GRef) :=
  if s.cyclic then (s, [])
  else defFlush { s with cyclic := true } true

/-- Feed a list of events to a `ProcessDefine`, collecting the notifications
its listeners receive. -/
def defRun {ρ : Type} [DecidableEq ρ] (s : DefMach ρ) :
    List (DefEvt ρ) → DefMach ρ × List (Evt ρ GRef)
  | [] => (s, [])
  | e :: t =>
      let (s', out) :=
        match e with
        | .newResult r g => defNewResult s r g
        | .complete => defComplete s
        | .markCyclic => defMarkCyclic s
      let (s'', outs) := defRun s' t
      (s'', out ++ outs)

/-- `ProcessDefine.addListener`: a listener attached later first receives a
replay of every recorded result, then — if the entry is already complete —
a replayed completion. -/
def defAddListenerReplay {ρ : Type} (s : DefMach ρ) : List (Evt ρ GRef) :=
  s.results.map (fun p => Evt.result p.1 p.2) ++
    (if s.isComplete then [Evt.complete] else [])

/-! ## The definition cache (`_eval_define`, lines 208-237, with the
ancestor machinery of `ProcessDefine` and `ProcessDefineCycle`)

Entries live in an arena indexed by creation order; `parents` holds arena
indices (the shared-ownership ancestor references of the source).  The cache
`gp._def_nodes` is recovered from the arena by key search, which is faithful
because an entry for a key is only ever appended when the key is absent. -/

/-- One definition cache entry: its key `(definition-node, call-argument
tuple)`, its event machine, its ancestor set and whether `execute()` was
invoked for it. -/
structure DefEntry (ρ : Type) where
  key : Nat × List PTerm
  mach : DefMach ρ := {}
  parents : List Nat := []
  executed : Bool := false

/-- Parent (ancestor) ids of an arena entry. -/
def parentsOf {ρ : Type} (arena : List (DefEntry ρ)) (i : Nat) : List Nat :=
  match arena.get? i with
  | some e => e.parents
  | none => []

/-- One round of `ProcessDefine.getAncestors`: extend the current set by
every parent of its members. -/
def ancStep {ρ : Type} (arena : List (DefEntry ρ)) (cur : List Nat) : List Nat :=
  (cur.flatMap (parentsOf arena)).foldl
    (fun acc p => if p ∈ acc then acc else acc ++ [p]) cur

/-- Iterate `ancStep`. -/
def iterAnc {ρ : Type} (arena : List (DefEntry ρ)) : Nat → List Nat → List Nat
  | 0, cur => cur
  | n + 1, cur => iterAnc arena n (ancStep arena cur)

/-- `ProcessDefine.getAncestors`: the entry itself plus the closure of its
parent links (the source loops to a fixpoint; iterating once per arena entry
reaches it, since the set grows within the arena's index range). -/
def getAncestors {ρ : Type} (arena : List (DefEntry ρ)) (i : Nat) : List Nat :=
  iterAnc arena arena.length [i]

/-- `ProcessDefine.hasAncestor`. -/
def hasAncestor {ρ : Type} (arena : List (DefEntry ρ)) (i anc : Nat) : Bool :=
  anc ∈ getAncestors arena i

/-- Raise the cyclic flag of one entry through the property setter
(listener notifications of the triggered flush are not tracked at the arena
level). -/
def setEntryCyclic {ρ : Type} [DecidableEq ρ] (arena : List (DefEntry ρ))
    (i : Nat) : List (DefEntry ρ) :=
  match arena.get? i with
  | some e => arena.set i { e with mach := (defMarkCyclic e.mach).1 }
  | none => arena

/-- `ProcessDefine.propagateCyclic`: walking up from `selfId`, mark every
entry cyclic and recurse into its parents, stopping at the root (the cycle's
owner); fuel bounds the recursion (the source relies on the parent graph
being acyclic). -/
def propagateCyclic {ρ : Type} [DecidableEq ρ] :
    Nat → List (DefEntry ρ) → Nat → Nat → List (DefEntry ρ)
  | 0, arena, _, _ => arena
  | fuel + 1, arena, selfId, rootId =>
      if selfId = rootId then arena
      else
        let arena := setEntryCyclic arena selfId
        (parentsOf arena selfId).foldl
          (fun ar p => propagateCyclic fuel ar p rootId) arena

/-- `ProcessDefine.addAncestor` (a set insertion). -/
def addAncestor {ρ : Type} [DecidableEq ρ] (arena : List (DefEntry ρ))
    (i cd : Nat) : List (DefEntry ρ) :=
  match arena.get? i with
  | some e =>
      if cd ∈ e.parents then arena
      else arena.set i { e with parents := e.parents ++ [cd] }
  | none => arena

/-- `ProcessDefineCycle.__init__` as it affects the arena: propagate the
cyclic flag up from the caller (stopping at the owner), then raise the
owner's own flag.  The pass-through listener's bookkeeping (`addCycleChild`)
adds no arena state touched by a claim. -/
def detectCycle {ρ : Type} [DecidableEq ρ] (arena : List (DefEntry ρ))
    (callerId ownerId : Nat) : List (DefEntry ρ) :=
  let arena := propagateCyclic (arena.length + 1) arena callerId ownerId
  setEntryCyclic arena ownerId

/-- What a single `_eval_define` call did: executed a fresh entry, attached
the caller to an existing entry (carrying the replayed events), or detected
a cycle (the pass-through listener also receives the replay). -/
inductive DefAction (ρ : Type) where
  | executed (key : Nat × List PTerm)
  | attached (key : Nat × List PTerm) (replay : List (Evt ρ GRef))
  | cycleLinked (key : Nat × List PTerm) (replay : List (Evt ρ GRef))

/-- Position search for a key, counting from `i`. -/
def findEntryAux {ρ : Type} (key : Nat × List PTerm) :
    List (DefEntry ρ) → Nat → Option Nat
  | [], _ => none
  | e :: t, i => if e.key = key then some i else findEntryAux key t (i + 1)

/-- `gp._def_nodes.get(key)` recovered from the arena: the index of the
entry carrying the key. -/
def findEntry {ρ : Type} (arena : List (DefEntry ρ)) (key : Nat × List PTerm) :
    Option Nat :=
  findEntryAux key arena 0

/-- `EventBasedEngine._eval_define`: on an unseen key, create the entry
(with the caller's define among its ancestors), attach the caller and
execute; on a seen key, either detect a cycle (the caller's ancestor set
contains the entry) or record the caller as an ancestor and attach it as a
listener, replaying past events.  A caller-less re-query (`call_args.define`
falsy) takes the reuse branch; the null ancestor the source then inserts is
not modelled (no claim reads it). -/
def eval_define {ρ : Type} [DecidableEq ρ] (arena : List (DefEntry ρ))
    (nodeId : Nat) (callArgs : List PTerm) (callerDefine : Option Nat) :
    List (DefEntry ρ) × DefAction ρ :=
  let key := (nodeId, callArgs)
  match findEntry arena key with
  | none =>
      let e : DefEntry ρ := { key := key, parents := callerDefine.toList, executed := true }
      (arena ++ [e], .executed key)
  | some pid =>
      let isCycle :=
        match callerDefine with
        | some cd => hasAncestor arena cd pid
        | none => false
      if isCycle then
        let replay :=
          match callerDefine with
          | some cd =>
              let arena' := propagateCyclic (arena.length + 1) arena cd pid
              match arena'.get? pid with
              | some e => defAddListenerReplay e.mach
              | none => []
          | none => []
        (detectCycle arena (callerDefine.getD 0) pid, .cycleLinked key replay)
      else
        let arena :=
          match callerDefine with
          | some cd => addAncestor arena pid cd
          | none => arena
        let replay :=
          match arena.get? pid with
          | some e => defAddListenerReplay e.mach
          | none => []
        (arena, .attached key replay)

/-- Operations of one grounding run touching the definition cache: a tabled
call, or an event delivered to an entry by its own candidate evaluation. -/
inductive TblOp (ρ : Type) where
  | call (nodeId : Nat) (callArgs : List PTerm) (callerDefine : Option Nat)
  | deliver (entryId : Nat) (e : DefEvt ρ)

/-- Apply one operation to the arena, recording the call's action. -/
def tblStep {ρ : Type} [DecidableEq ρ] (arena : List (DefEntry ρ)) :
    TblOp ρ → List (DefEntry ρ) × Option (DefAction ρ)
  | .call nodeId callArgs callerDefine =>
      let (arena, act) := eval_define arena nodeId callArgs callerDefine
      (arena, some act)
  | .deliver i e =>
      match arena.get? i with
      | some entry =>
          let (m, _) := defRun entry.mach [e]
          (arena.set i { entry with mach := m }, none)
      | none => (arena, none)

/-- Run a grounding run's operations from an arena, collecting the actions. -/
def tblRun {ρ : Type} [DecidableEq ρ] (arena : List (DefEntry ρ)) :
    List (TblOp ρ) → List (DefEntry ρ) × List (DefAction ρ)
  | [] => (arena, [])
  | op :: ops =>
      let (arena', act) := tblStep arena op
      let (arena'', acts) := tblRun arena' ops
      (arena'', act.toList ++ acts)

/-- Number of `executed` actions for a key. -/
def execCount {ρ : Type} (key : Nat × List PTerm) : List (DefAction ρ) → Nat
  | [] => 0
  | .executed k :: l => (if k = key then 1 else 0) + execCount key l
  | _ :: l => execCount key l

/-- Whether the arena holds an entry for a key. -/
def hasKey {ρ : Type} (arena : List (DefEntry ρ)) (key : Nat × List PTerm) : Bool :=
  (findEntry arena key).isSome

/-! ## Claim C6 — clause-index erasure

`ClauseIndexNew.find` computes the trie lookup as a Python `list` (that is
what `TermTrieNode.find` returns) and then evaluates `result -= self.__erased`
against the erased `set`; a `list` does not support subtraction by a `set`,
so every lookup on an index with a nonempty erased set raises a `TypeError`
instead of returning the surviving candidates. -/

/-- A one-fact database for exercising the clause index. -/
def exampleDB6 : ClauseDB := .root [] { nodes := [.fact "p" [] none] }

/-- The index after appending candidate `0` (the fact `p`). -/
def exampleIndex6 : ClauseIndexNew := ClauseIndexNew.append exampleDB6 {} 0

/-- C6: the claim says that after appending candidates and erasing a subset,
every subsequent `find` returns exactly the compatible non-erased candidates
in insertion order.  On the code, `find` works before any erasure (first
conjunct), but after erasing the single appended candidate the very same
lookup raises a `TypeError` (`list -= set`), returning no candidate list at
all (second conjunct). -/
theorem claim_C6_find_after_erase_raises :
    ClauseIndexNew.find exampleIndex6 (.app "p" []) = .ok [0] ∧
    ClauseIndexNew.find (ClauseIndexNew.erase exampleIndex6 [0]) (.app "p" [])
      = .error .typeErrorListMinusSet :=
  ⟨rfl, rfl⟩

/-! ## Claim C9 — reserved-name and builtin redefinition -/

/-- C9: the claim says `add_fact`/`add_clause` on a reserved functor
(`choice`, `body`) raises the access error.  The source's
`is_reserved_name` compares the name with the reserved-name *set* by object
identity (`is`), which is false for every string, so adding a fact named
`choice` succeeds (third and fourth conjuncts) even though the name is in
the reserved set (second conjunct). -/
theorem claim_C9_reserved_name_unenforced :
    ClauseDB.is_reserved_name "choice" = false ∧
    ClauseDB.is_reserved_name_spec "choice" = true ∧
    (ClauseDB.add_fact (.root [] {}) "choice" [] none).isOk = true ∧
    ∃ db, ClauseDB.add_fact (.root [] {}) "choice" [] none = .ok (db, some 0) :=
  ⟨rfl, rfl, rfl, ⟨_, rfl⟩⟩

/-! ## Claim C8 — choice-node evaluation -/

/-- C8: evaluating a choice node raises the non-ground-probabilistic-clause
error exactly when the instantiated call arguments are not fully ground;
when they are ground it emits exactly one result — whose ground atom is
identified by `(group, arguments, choice)` and grouped under
`(group, arguments)`, so repeated groundings of the same instantiation
share one atom — followed by the completion. -/
theorem claim_C8_choice_ground_iff (group choiceIdx : Nat)
    (probability : Option PTerm) (callArgs : List PTerm) :
    (eval_choice group choiceIdx probability callArgs
        = .error .nonGroundProbabilisticClause
      ↔ PTerm.isGroundList callArgs = false) ∧
    (PTerm.isGroundList callArgs = true →
      eval_choice group choiceIdx probability callArgs =
        .ok [.result callArgs (some (Sink.add_atom
            (.choiceAtom group callArgs choiceIdx)
            (probability.map (fun p => instantiateT p callArgs))
            (some (group, callArgs)))),
          .complete]) := by
  by_cases hg : PTerm.isGroundList callArgs = true
  · simp [eval_choice, hg]
  · have hg' : PTerm.isGroundList callArgs = false := by
      simpa using hg
    simp [eval_choice, hg']

/-- Witness for C8 at a ground and concrete input. -/
theorem claim_C8_choice_ground_iff_witness :
    PTerm.isGroundList [PTerm.app "a" []] = true ∧
    eval_choice 2 1 none [.app "a" []] =
      .ok [.result [.app "a" []] (some (Sink.add_atom
          (.choiceAtom 2 [.app "a" []] 1) none (some (2, [.app "a" []])))),
        .complete] :=
  ⟨rfl, (claim_C8_choice_ground_iff 2 1 none [.app "a" []]).2 rfl⟩

/-! ## Claim C4 — negation -/

/-- The reference `ProcessNot` attaches to its sole result: `0` ("no ground
dependency") when nothing was buffered, and `not(or(buffered))` otherwise. -/
def notResultRef (buffer : List GRef) : GRef :=
  match buffer with
  | [] => .zero
  | _ :: _ => Sink.add_not (Sink.add_or buffer true)

/-- `notRun` over a protocol-respecting child trace, generalized over an
initial buffer. -/
theorem notRun_protocol {ρ : Type} (ctx : ρ) (rs : List (ρ × Option GRef))
    (buffer : List GRef) :
    notRun ctx buffer false (rs.map (fun p => Evt.result p.1 p.2) ++ [Evt.complete]) =
      [Evt.result ctx (some (notResultRef (buffer ++ rs.filterMap (fun p => p.2)))),
        Evt.complete] := by
  induction rs generalizing buffer with
  | nil => cases buffer <;> simp [notRun, notResultRef]
  | cons hd tl ih =>
      cases hg : hd.2 with
      | none => simpa [notRun, hg] using ih buffer
      | some gr =>
          have := ih (buffer ++ [gr])
          simpa [notRun, hg, List.append_assoc] using this

/-- C4: for every evaluation of a negation node over a child respecting the
result/completion protocol, the negation emits exactly one result — whose
ground reference is `not(or(buffered))` over exactly the buffered child
references, or the no-dependency reference `0` when none were buffered —
followed by exactly one completion. -/
theorem claim_C4_negation_single_result {ρ : Type} (ctx : ρ)
    (rs : List (ρ × Option GRef)) :
    notRun ctx [] false (rs.map (fun p => Evt.result p.1 p.2) ++ [Evt.complete]) =
      [Evt.result ctx (some (notResultRef (rs.filterMap (fun p => p.2)))),
        Evt.complete] := by
  simpa using notRun_protocol ctx rs []

/-! ## Claim C3 — conjunction pending count -/

/-- Completion count of concatenated traces. -/
theorem completeCount_append {ρ γ : Type} (a b : List (Evt ρ γ)) :
    completeCount (a ++ b) = completeCount a + completeCount b := by
  induction a with
  | nil => simp [completeCount]
  | cons hd tl ih =>
      cases hd with
      | result r g => simp [completeCount, ih]
      | complete =>
          simp [completeCount, ih]
          omega

/-- A mapped result list contains no completion. -/
theorem completeCount_map_result {ρ γ α : Type} (l : List α) (f : α → ρ) (g : α → γ) :
    completeCount (l.map (fun x => Evt.result (f x) (g x))) = 0 := by
  induction l with
  | nil => rfl
  | cons hd tl ih => simpa [completeCount] using ih

/-- One spawned second-conjunct evaluation, processed inline through its
`ProcessAnd`: with at least one pending completion left for the first
conjunct, the spawned trace contributes its results conjoined with the
spawning result's reference and hands exactly one completion back to the
link, restoring the pending count. -/
theorem linkHandleB_protocol {ρ : Type} (g : GRef) (bs : List (ρ × GRef))
    (req : Int) (hreq : 1 ≤ req) (lic : Bool) :
    linkHandleB g ((bs.map fun p => Evt.result p.1 p.2) ++ [Evt.complete])
        (req + 1) lic false =
      (bs.map (fun p => Evt.result p.1 (Sink.add_and g p.2)), req, lic, true) := by
  induction bs with
  | nil =>
      have h0 : ¬ (req = 0) := by omega
      simp [linkHandleB, h0]
  | cons hd tl ih => simp [linkHandleB, ih]

/-- `ProcessLink` over the whole first-conjunct trace: the output is the
concatenation, in order, of each spawned evaluation's conjoined results, and
the single completion fires exactly when the pending count returns to
zero — at the first conjunct's completion. -/
theorem linkRun_conj {ρ : Type} (B : ρ → List (Evt ρ GRef))
    (Bres : ρ → List (ρ × GRef))
    (hB : ∀ r, B r = (Bres r).map (fun p => Evt.result p.1 p.2) ++ [Evt.complete])
    (rs : List (ρ × GRef)) (req : Int) (hreq : 1 ≤ req) :
    linkRun req false B ((rs.map fun p => Evt.result p.1 p.2) ++ [Evt.complete]) =
      (rs.flatMap fun p =>
        (Bres p.1).map fun q => Evt.result q.1 (Sink.add_and p.2 q.2)) ++
        (if req = 1 then [Evt.complete] else []) := by
  induction rs generalizing req with
  | nil =>
      by_cases h1 : req = 1
      · subst h1
        simp [linkRun]
      · have h0 : ¬ (req - 1 = 0) := by omega
        simp [linkRun, h0, h1]
  | cons hd tl ih =>
      have hstep := linkHandleB_protocol hd.2 (Bres hd.1) req hreq false
      simp [linkRun, hB hd.1, hstep, ih req hreq, List.append_assoc]

/-- Conjoined result blocks contain no completion. -/
theorem completeCount_flatMap_result {ρ γ α β : Type} (l : List α)
    (f : α → List β) (a : α → β → ρ) (b : α → β → γ) :
    completeCount (l.flatMap fun x => (f x).map fun q =>
      Evt.result (a x q) (b x q)) = 0 := by
  induction l with
  | nil => rfl
  | cons hd tl ih =>
      simp [List.flatMap_cons, completeCount_append, completeCount_map_result, ih]

/-- C3: a conjunction node signals completion exactly once, exactly when the
pending count — initialized to one for the first conjunct, incremented per
spawned second-conjunct evaluation, decremented per received completion —
returns to zero; its results are exactly the conjoined results of the
spawned evaluations, in order, all before the single completion. -/
theorem claim_C3_conjunction_count {ρ : Type} (B : ρ → List (Evt ρ GRef))
    (Bres : ρ → List (ρ × GRef))
    (hB : ∀ r, B r = (Bres r).map (fun p => Evt.result p.1 p.2) ++ [Evt.complete])
    (rs : List (ρ × GRef)) :
    conjRun ((rs.map fun p => Evt.result p.1 p.2) ++ [Evt.complete]) B =
      (rs.flatMap fun p =>
        (Bres p.1).map fun q => Evt.result q.1 (Sink.add_and p.2 q.2)) ++
        [Evt.complete] ∧
    completeCount
      (conjRun ((rs.map fun p => Evt.result p.1 p.2) ++ [Evt.complete]) B) = 1 := by
  have h := linkRun_conj B Bres hB rs 1 (le_refl 1)
  refine ⟨by simpa [conjRun] using h, ?_⟩
  rw [show conjRun ((rs.map fun p => Evt.result p.1 p.2) ++ [Evt.complete]) B =
    linkRun 1 false B ((rs.map fun p => Evt.result p.1 p.2) ++ [Evt.complete]) from rfl,
    h]
  simp [completeCount_append, completeCount, completeCount_flatMap_result]

/-- The second-conjunct result table of the claim's concrete scenario: the
three spawned evaluations yield zero, one and two results. -/
def exBres3 : Nat → List (Nat × GRef)
  | 1 => [(10, .zero)]
  | 2 => [(20, .zero), (21, .zero)]
  | _ => []

/-- The spawned evaluations' protocol-respecting traces. -/
def exB3 (r : Nat) : List (Evt Nat GRef) :=
  (exBres3 r).map (fun p => Evt.result p.1 p.2) ++ [Evt.complete]

/-! ## Claim C7 — derived databases: parent forwarding and override -/

/-- Updating a key makes it found. -/
theorem alookup_aset_self {α β : Type} [DecidableEq α] (l : List (α × β))
    (k : α) (v : β) : alookup (aset l k v) k = some v := by
  induction l with
  | nil => simp [aset, alookup]
  | cons hd tl ih =>
      obtain ⟨a, b⟩ := hd
      by_cases h : a = k
      · simp [aset, h, alookup]
      · simp [aset, h, alookup, ih]

/-- Updating one key leaves the others' lookups alone. -/
theorem alookup_aset_ne {α β : Type} [DecidableEq α] (l : List (α × β))
    (k j : α) (v : β) (h : j ≠ k) : alookup (aset l k v) j = alookup l j := by
  have hkj : ¬ (k = j) := fun hh => h hh.symm
  induction l with
  | nil => simp [aset, alookup, hkj]
  | cons hd tl ih =>
      obtain ⟨a, b⟩ := hd
      by_cases ha : a = k
      · subst ha
        simp [aset, alookup, hkj]
      · simp [aset, ha, alookup, ih]

/-- C7: reading an index below a derived database's offset (and outside its
redirection table) is forwarded to the parent; and overriding a predicate
whose `define` node lives in the parent appends a fresh local `define` node
initialized with a copy of the parent's candidates and installs a
redirection from the old index to it, so the old index transparently
resolves to the override while every other previously readable index is
unchanged (compiled `call` nodes are not rewritten). -/
theorem claim_C7_parent_forwarding_and_override (p : ClauseDB) (l : Layer)
    (f : String) (n : Nat) (old : Nat)
    (hr : alookup l.redirect old = none) (ho : old < p.length)
    (hb : ClauseDB.get_builtin (.child p l) ⟨f, n⟩ = none)
    (hh : ClauseDB.get_head (.child p l) ⟨f, n⟩ = some old) :
    ClauseDB.get_node (.child p l) old = p.get_node old ∧
    ∃ db' : ClauseDB,
      ClauseDB.add_head (.child p l) f n true =
        .ok (db', (((ClauseDB.child p l).length : Nat) : Int)) ∧
      db'.get_node old =
        some (.define f n (((p.get_node old).getD .empty).nodeChildren)) ∧
      ∀ j, j < (ClauseDB.child p l).length → alookup l.redirect j = none →
        j ≠ old → db'.get_node j = ClauseDB.get_node (.child p l) j := by
  have hpart1 : ClauseDB.get_node (.child p l) old = p.get_node old := by
    simp [ClauseDB.get_node, hr, ho]
  refine ⟨hpart1, ?_⟩
  have hidx : (ClauseDB.child p l).length = p.length + l.nodes.length := rfl
  have hstep : ClauseDB.add_head (.child p l) f n true =
      .ok (ClauseDB.child p
        { nodes := l.nodes ++
            [DBNode.define f n (((p.get_node old).getD .empty).nodeChildren)],
          heads := aset l.heads ⟨f, n⟩ (ClauseDB.child p l).length,
          redirect := aset l.redirect old (ClauseDB.child p l).length },
        (((ClauseDB.child p l).length : Nat) : Int)) := by
    simp [ClauseDB.add_head, ClauseDB.is_reserved_name, hb, hh, ClauseDB.offset,
      ho, ClauseDB.append_node, ClauseDB.setLayer, ClauseDB.set_head,
      ClauseDB.layer, hpart1]
  refine ⟨_, hstep, ?_, ?_⟩
  · have hlook : alookup (aset l.redirect old (p.length + l.nodes.length)) old =
        some (p.length + l.nodes.length) := alookup_aset_self _ _ _
    have hge : ¬ (p.length + l.nodes.length < p.length) := by omega
    have harith : p.length + l.nodes.length - p.length = l.nodes.length := by omega
    simp only [ClauseDB.get_node, ClauseDB.length, hlook, Option.getD_some, hge,
      if_false, harith, List.get?_eq_getElem?]
    exact List.getElem?_concat_length _ _
  · intro j hj hrj hne
    have hlook : alookup (aset l.redirect old (p.length + l.nodes.length)) j =
        alookup l.redirect j := alookup_aset_ne _ _ _ _ hne
    by_cases hjp : j < p.length
    · simp [ClauseDB.get_node, ClauseDB.length, hlook, hrj, hjp]
    · have hjl : j - p.length < l.nodes.length := by
        rw [hidx] at hj
        omega
      simp [ClauseDB.get_node, ClauseDB.length, hlook, hrj, hjp,
        List.get?_eq_getElem?, List.getElem?_append_left hjl]

/-- A concrete parent database defining `q/0` as node 0 with one candidate. -/
def exampleParent7 : ClauseDB :=
  .root [] { nodes := [.define "q" 0 [7]], heads := [(⟨"q", 0⟩, 0)] }

/-- Witness for C7: overriding `q/0` in a derived database built over
`exampleParent7` forwards reads below the offset and redirects the old
index to the fresh local `define` copy. -/
theorem claim_C7_parent_forwarding_and_override_witness :
    ClauseDB.get_node (.child exampleParent7 {}) 0 = exampleParent7.get_node 0 ∧
    ∃ db' : ClauseDB,
      ClauseDB.add_head (.child exampleParent7 {}) "q" 0 true = .ok (db', 1) ∧
      db'.get_node 0 =
        some (.define "q" 0 (((exampleParent7.get_node 0).getD .empty).nodeChildren)) ∧
      ∀ j, j < (ClauseDB.child exampleParent7 {}).length →
        alookup (Layer.redirect {}) j = none → j ≠ 0 →
        db'.get_node j = ClauseDB.get_node (.child exampleParent7 {}) j :=
  claim_C7_parent_forwarding_and_override exampleParent7 {} "q" 0 0 rfl
    (by decide) rfl rfl

/-! ## Claim C10 — facts with variables become clauses -/

mutual
/-- Applying a term can only grow the variable dictionary. -/
theorem size_le_applyA (t : PTerm) (d : AutoDict) :
    d.size ≤ (t.applyA d).2.size := by
  match t with
  | .var n =>
      simp only [PTerm.applyA, AutoDict.get]
      cases hl : alookup d.map n with
      | some v => simp
      | none => simp [AutoDict.size]
  | .num i => simp [PTerm.applyA]
  | .app f args =>
      simpa [PTerm.applyA] using size_le_applyListA args d

/-- Applying a term list can only grow the variable dictionary. -/
theorem size_le_applyListA (ts : List PTerm) (d : AutoDict) :
    d.size ≤ (PTerm.applyListA ts d).2.size := by
  match ts with
  | [] => simp [PTerm.applyListA]
  | t :: rest =>
      have h1 := size_le_applyA t d
      have h2 := size_le_applyListA rest (t.applyA d).2
      simp only [PTerm.applyListA]
      omega
end

mutual
/-- If applying a term leaves the dictionary empty, the term is ground. -/
theorem ground_of_applyA_size_zero (t : PTerm) (d : AutoDict)
    (h : (t.applyA d).2.size = 0) : t.isGround = true := by
  match t with
  | .var n =>
      exfalso
      revert h
      simp only [PTerm.applyA, AutoDict.get]
      cases hl : alookup d.map n with
      | some v =>
          intro h
          have hempty : d.map = [] := List.length_eq_zero.mp h
          rw [hempty] at hl
          simp [alookup] at hl
      | none =>
          intro h
          simp [AutoDict.size] at h
  | .num i => rfl
  | .app f args =>
      have := ground_of_applyListA_size_zero args d (by simpa [PTerm.applyA] using h)
      simpa [PTerm.isGround] using this

/-- If applying a term list leaves the dictionary empty, all terms are
ground. -/
theorem ground_of_applyListA_size_zero (ts : List PTerm) (d : AutoDict)
    (h : (PTerm.applyListA ts d).2.size = 0) : PTerm.isGroundList ts = true := by
  match ts with
  | [] => rfl
  | t :: rest =>
      have hle := size_le_applyListA rest (t.applyA d).2
      have hfin : (PTerm.applyListA (t :: rest) d).2.size =
          (PTerm.applyListA rest (t.applyA d).2).2.size := by
        simp [PTerm.applyListA]
      rw [hfin] at h
      have ht : (t.applyA d).2.size = 0 := by omega
      have h1 := ground_of_applyA_size_zero t d ht
      have h2 := ground_of_applyListA_size_zero rest (t.applyA d).2 h
      simp [PTerm.isGroundList, h1, h2]
end

/-- The `add_fact` variable count is zero only for variable-free argument
tuples. -/
theorem isGround_of_factVarDict_size_zero (args : List PTerm)
    (p : Option PTerm) (h : (ClauseDB.factVarDict args p).size = 0) :
    PTerm.isGroundList args = true := by
  cases p with
  | none =>
      exact ground_of_applyListA_size_zero args {} (by simpa [ClauseDB.factVarDict] using h)
  | some q =>
      have hq : (ClauseDB.factVarDict args (some q)).size =
          ((q.applyA (PTerm.applyListA args {}).2).2).size := by
        simp [ClauseDB.factVarDict]
      rw [hq] at h
      have hle := size_le_applyA q (PTerm.applyListA args {}).2
      exact ground_of_applyListA_size_zero args {} (by omega)

/-- A `fact` node whose arguments are not variable-free (the shape the claim
says can never be stored). -/
def DBNode.isBadFact : DBNode → Bool
  | .fact _ args _ => !(PTerm.isGroundList args)
  | _ => false

/-- Offending fact count of a layer. -/
def layerBad (l : Layer) : Nat := l.nodes.countP (fun n => n.isBadFact)

/-- Offending fact count of a whole database. -/
def badFactCount : ClauseDB → Nat
  | .root _ l => layerBad l
  | .child p l => badFactCount p + layerBad l

/-- Replacing a layer only changes the local offending count. -/
theorem badFactCount_setLayer (db : ClauseDB) (L : Layer) :
    badFactCount (db.setLayer L) + layerBad db.layer =
      badFactCount db + layerBad L := by
  cases db <;> simp [ClauseDB.setLayer, ClauseDB.layer, badFactCount] <;> omega

/-- Setting an entry that fails the predicate cannot raise a `countP`. -/
theorem countP_set_le {α : Type} (l : List α) (i : Nat) (x : α) (p : α → Bool)
    (hx : p x = false) : (l.set i x).countP p ≤ l.countP p := by
  induction l generalizing i with
  | nil => simp
  | cons hd tl ih =>
      cases i with
      | zero => simp [List.set, List.countP_cons, hx]
      | succ m =>
          simp only [List.set, List.countP_cons]
          have := ih m
          omega

/-- Appending a node that is not an offending fact. -/
theorem append_node_bad {db : ClauseDB} {nd : DBNode}
    (h : nd.isBadFact = false) :
    badFactCount (db.append_node nd).1 = badFactCount db := by
  have hb := badFactCount_setLayer db { db.layer with nodes := db.layer.nodes ++ [nd] }
  simp only [ClauseDB.append_node]
  simp [layerBad, List.countP_append, h, List.countP_cons] at hb
  omega

/-- Appending an offending fact raises the count by one. -/
theorem append_node_bad_fact {db : ClauseDB} {nd : DBNode} :
    badFactCount (db.append_node nd).1 ≤ badFactCount db + 1 := by
  have hb := badFactCount_setLayer db { db.layer with nodes := db.layer.nodes ++ [nd] }
  simp only [ClauseDB.append_node]
  simp [layerBad, List.countP_append, List.countP_cons] at hb
  by_cases h : nd.isBadFact = true <;> simp [h] at hb <;> omega

/-- `set_node` with a `define` node cannot raise the count. -/
theorem set_node_bad {db : ClauseDB} {i : Nat} {f : String} {a : Nat}
    {ch : List Nat} :
    badFactCount (db.set_node i (.define f a ch)) ≤ badFactCount db := by
  unfold ClauseDB.set_node
  by_cases hlt : i < db.offset
  · simp [hlt]
  · have hb := badFactCount_setLayer db
      { db.layer with nodes := db.layer.nodes.set (i - db.offset) (.define f a ch) }
    have hc := countP_set_le db.layer.nodes (i - db.offset) (.define f a ch)
      (fun n => n.isBadFact) rfl
    simp only [hlt, if_false]
    simp [layerBad] at hb
    omega

/-- `set_head` leaves the count alone. -/
theorem set_head_bad (db : ClauseDB) (sig : Sig) (i : Nat) :
    badFactCount (db.set_head sig i) = badFactCount db := by
  have hb := badFactCount_setLayer db { db.layer with heads := aset db.layer.heads sig i }
  simp only [ClauseDB.set_head]
  simp [layerBad] at hb
  omega

/-- Inversion for `Except` binds. -/
theorem except_bind_ok {ε α β : Type} {m : Except ε α} {f : α → Except ε β}
    {b : β} (h : (m >>= f) = .ok b) : ∃ a, m = .ok a ∧ f a = .ok b := by
  cases m with
  | error e => simp [Bind.bind, Except.bind] at h
  | ok a => exact ⟨a, rfl, by simpa [Bind.bind, Except.bind] using h⟩

/-- Replacing only the redirection table leaves the count alone. -/
theorem setLayer_redirect_bad (db : ClauseDB) (R : List (Nat × Nat)) :
    badFactCount (db.setLayer { db.layer with redirect := R }) = badFactCount db := by
  have hb := badFactCount_setLayer db { db.layer with redirect := R }
  have h2 : layerBad { db.layer with redirect := R } = layerBad db.layer := rfl
  omega

/-- A `define` node is never an offending fact. -/
theorem isBadFact_define (f : String) (a : Nat) (ch : List Nat) :
    (DBNode.define f a ch).isBadFact = false := rfl

/-- The placeholder is never an offending fact. -/
theorem isBadFact_empty : DBNode.empty.isBadFact = false := rfl

/-- `add_head` appends only `define` or placeholder nodes. -/
theorem add_head_bad {db db' : ClauseDB} {f : String} {n : Nat} {c : Bool}
    {r : Int} (h : ClauseDB.add_head db f n c = .ok (db', r)) :
    badFactCount db' = badFactCount db := by
  unfold ClauseDB.add_head at h
  split at h
  · exact Except.noConfusion h
  · split at h
    · split at h
      · exact Except.noConfusion h
      · simp only [Except.ok.injEq, Prod.mk.injEq] at h
        rw [← h.1]
    · split at h
      · split at h
        · simp only [Except.ok.injEq, Prod.mk.injEq] at h
          rw [← h.1, set_head_bad, append_node_bad (isBadFact_define _ _ _)]
        · simp only [Except.ok.injEq, Prod.mk.injEq] at h
          rw [← h.1, set_head_bad, append_node_bad isBadFact_empty]
      · split at h
        · simp only [Except.ok.injEq, Prod.mk.injEq] at h
          rw [← h.1, set_head_bad, setLayer_redirect_bad,
            append_node_bad (isBadFact_define _ _ _)]
        · simp only [Except.ok.injEq, Prod.mk.injEq] at h
          rw [← h.1]

/-- A `call` node is never an offending fact. -/
theorem isBadFact_call (f : PTerm) (args : List PTerm) (dn : Int) :
    (DBNode.call f args dn).isBadFact = false := rfl

/-- A `clause` node is never an offending fact. -/
theorem isBadFact_clause (f : String) (args : List PTerm) (p : Option PTerm)
    (c vc : Nat) (g : Option Nat) :
    (DBNode.clause f args p c vc g).isBadFact = false := rfl

/-- A `conj` node is never an offending fact. -/
theorem isBadFact_conj (a b : Nat) : (DBNode.conj a b).isBadFact = false := rfl

/-- A `disj` node is never an offending fact. -/
theorem isBadFact_disj (a b : Nat) : (DBNode.disj a b).isBadFact = false := rfl

/-- A `neg` node is never an offending fact. -/
theorem isBadFact_neg (a : Nat) : (DBNode.neg a).isBadFact = false := rfl

/-- A `choice` node is never an offending fact. -/
theorem isBadFact_choice (f : PTerm) (args : List PTerm) (p : Option PTerm)
    (g c : Nat) : (DBNode.choice f args p g c).isBadFact = false := rfl

/-- `_add_define_node` cannot raise the offending count. -/
theorem add_define_node_bad {db db' : ClauseDB} {f : String} {n cn r : Nat}
    (h : ClauseDB.add_define_node db f n cn = .ok (db', r)) :
    badFactCount db' ≤ badFactCount db := by
  unfold ClauseDB.add_define_node at h
  obtain ⟨a, h1, h⟩ := except_bind_ok h
  obtain ⟨db1, di⟩ := a
  have hb1 := add_head_bad h1
  dsimp only at h
  split at h <;>
    simp only [Except.ok.injEq, Prod.mk.injEq] at h <;>
    rw [← h.1] <;>
    exact le_of_le_of_eq set_node_bad hb1

/-- `_add_call_node` cannot raise the offending count. -/
theorem add_call_node_bad {db db' : ClauseDB} {t : PTerm} {d d' : AutoDict}
    {r : Nat} (h : ClauseDB.add_call_node db t d = .ok (db', d', r)) :
    badFactCount db' ≤ badFactCount db := by
  unfold ClauseDB.add_call_node at h
  rcases hap : t.applyA d with ⟨t', d1⟩
  rw [hap] at h
  dsimp only at h
  cases t' with
  | var v => exact Except.noConfusion h
  | num i => exact Except.noConfusion h
  | app f args =>
      obtain ⟨a, h1, h⟩ := except_bind_ok h
      obtain ⟨db1, dn⟩ := a
      have hb1 := add_head_bad h1
      dsimp only at h
      simp only [Except.ok.injEq, Prod.mk.injEq] at h
      rw [← h.1, append_node_bad (isBadFact_call _ _ _), hb1]

/-- `_add_clause_node` cannot raise the offending count. -/
theorem add_clause_node_bad {db db' : ClauseDB} {head : PHead} {body vc r : Nat}
    {grp : Option Nat}
    (h : ClauseDB.add_clause_node db head body vc grp = .ok (db', r)) :
    badFactCount db' ≤ badFactCount db := by
  unfold ClauseDB.add_clause_node at h
  have hd := add_define_node_bad h
  calc badFactCount db' ≤
      badFactCount (db.append_node (.clause head.functor head.args
        head.probability body vc grp)).1 := hd
    _ = badFactCount db := append_node_bad (isBadFact_clause _ _ _ _ _ _)

/-- The per-head annotated-disjunction step cannot raise the offending
count. -/
theorem compileADHead_bad {db db' : ClauseDB} {group : Nat} {bf : String}
    {bha bargs : List PTerm} {cb : Int} {bc choice : Nat} {head : PHead}
    (h : ClauseDB.compileADHead db group bf bha bargs cb bc choice head
      = .ok db') :
    badFactCount db' ≤ badFactCount db := by
  unfold ClauseDB.compileADHead at h
  dsimp only at h
  obtain ⟨a, h1, h⟩ := except_bind_ok h
  obtain ⟨db5, cn⟩ := a
  dsimp only at h
  simp only [Except.ok.injEq] at h
  rw [← h]
  refine le_trans (add_clause_node_bad h1) ?_
  rw [append_node_bad (isBadFact_conj _ _),
    append_node_bad (isBadFact_call _ _ _),
    append_node_bad (isBadFact_call _ _ _),
    append_node_bad (isBadFact_choice _ _ _ _ _)]

/-- The head fold of the annotated-disjunction compiler cannot raise the
offending count. -/
theorem compileADHeads_bad (heads : List PHead) : ∀ {db db' : ClauseDB}
    {group : Nat} {bf : String} {bha bargs : List PTerm} {cb : Int}
    {bc choice : Nat},
    ClauseDB.compileADHeads db group bf bha bargs cb bc choice heads
      = .ok db' → badFactCount db' ≤ badFactCount db := by
  induction heads with
  | nil =>
      intro db db' group bf bha bargs cb bc choice h
      simp only [ClauseDB.compileADHeads, Except.ok.injEq] at h
      rw [h]
  | cons hd tl ih =>
      intro db db' group bf bha bargs cb bc choice h
      simp only [ClauseDB.compileADHeads] at h
      obtain ⟨db1, h1, h⟩ := except_bind_ok h
      exact le_trans (ih h) (compileADHead_bad h1)

mutual
/-- `_compile` cannot raise the offending count. -/
theorem compile_bad (s : PStruct) : ∀ {db : ClauseDB} {d : AutoDict}
    {db' : ClauseDB} {d' : AutoDict} {r : Option Nat},
    ClauseDB.compile db s d = .ok (db', d', r) →
    badFactCount db' ≤ badFactCount db := by
  match s with
  | .conj a b =>
      intro db d db' d' r h
      simp only [ClauseDB.compile] at h
      obtain ⟨x1, h1, h⟩ := except_bind_ok h
      obtain ⟨db1, d1, op1⟩ := x1
      dsimp only at h
      obtain ⟨x2, h2, h⟩ := except_bind_ok h
      obtain ⟨db2, d2, op2⟩ := x2
      dsimp only at h
      split at h
      · simp only [Except.ok.injEq, Prod.mk.injEq] at h
        rw [← h.1, append_node_bad (isBadFact_conj _ _)]
        exact le_trans (compile_bad b h2) (compile_bad a h1)
      · exact Except.noConfusion h
  | .disj a b =>
      intro db d db' d' r h
      simp only [ClauseDB.compile] at h
      obtain ⟨x1, h1, h⟩ := except_bind_ok h
      obtain ⟨db1, d1, op1⟩ := x1
      dsimp only at h
      obtain ⟨x2, h2, h⟩ := except_bind_ok h
      obtain ⟨db2, d2, op2⟩ := x2
      dsimp only at h
      split at h
      · simp only [Except.ok.injEq, Prod.mk.injEq] at h
        rw [← h.1, append_node_bad (isBadFact_disj _ _)]
        exact le_trans (compile_bad b h2) (compile_bad a h1)
      · exact Except.noConfusion h
  | .neg a =>
      intro db d db' d' r h
      simp only [ClauseDB.compile] at h
      obtain ⟨x1, h1, h⟩ := except_bind_ok h
      obtain ⟨db1, d1, op1⟩ := x1
      dsimp only at h
      split at h
      · simp only [Except.ok.injEq, Prod.mk.injEq] at h
        rw [← h.1, append_node_bad (isBadFact_neg _)]
        exact compile_bad a h1
      · exact Except.noConfusion h
  | .lit t =>
      intro db d db' d' r h
      simp only [ClauseDB.compile] at h
      obtain ⟨x1, h1, h⟩ := except_bind_ok h
      obtain ⟨db1, d1, idx⟩ := x1
      dsimp only at h
      simp only [Except.ok.injEq, Prod.mk.injEq] at h
      rw [← h.1]
      exact add_call_node_bad h1
  | .clause head body =>
      intro db d db' d' r h
      simp only [ClauseDB.compile] at h
      split at h
      · exact compileAD_bad [head] body h
      · obtain ⟨x1, h1, h⟩ := except_bind_ok h
        obtain ⟨db1, d1, op1⟩ := x1
        dsimp only at h
        split at h
        · obtain ⟨x2, h2, h⟩ := except_bind_ok h
          obtain ⟨db2, cn⟩ := x2
          dsimp only at h
          simp only [Except.ok.injEq, Prod.mk.injEq] at h
          rw [← h.1]
          exact le_trans (add_clause_node_bad h2) (compile_bad body h1)
        · exact Except.noConfusion h
  | .annDisj heads body =>
      intro db d db' d' r h
      simp only [ClauseDB.compile] at h
      exact compileAD_bad heads body h

/-- The annotated-disjunction branch cannot raise the offending count. -/
theorem compileAD_bad (heads : List PHead) (body : PStruct) :
    ∀ {db : ClauseDB} {d : AutoDict} {db' : ClauseDB} {d' : AutoDict}
    {r : Option Nat},
    ClauseDB.compileAD db heads body d = .ok (db', d', r) →
    badFactCount db' ≤ badFactCount db := by
  intro db d db' d' r h
  unfold ClauseDB.compileAD at h
  obtain ⟨x1, h1, h⟩ := except_bind_ok h
  obtain ⟨db1, d1, opb⟩ := x1
  dsimp only at h
  split at h
  · exact Except.noConfusion h
  · obtain ⟨x2, h2, h⟩ := except_bind_ok h
    obtain ⟨db2, cn⟩ := x2
    dsimp only at h
    obtain ⟨x3, h3, h⟩ := except_bind_ok h
    obtain ⟨db3, cb⟩ := x3
    dsimp only at h
    obtain ⟨db4, h4, h⟩ := except_bind_ok h
    simp only [Except.ok.injEq, Prod.mk.injEq] at h
    rw [← h.1]
    exact le_trans (compileADHeads_bad _ h4)
      (le_trans (le_of_eq (add_head_bad h3))
        (le_trans (add_clause_node_bad h2) (compile_bad body h1)))
end

/-- `add_clause` cannot raise the offending count. -/
theorem add_clause_bad {db db' : ClauseDB} {hd : PHead} {b : PStruct}
    {r : Option Nat} (hcl : ClauseDB.add_clause db hd b = .ok (db', r)) :
    badFactCount db' ≤ badFactCount db := by
  unfold ClauseDB.add_clause at hcl
  obtain ⟨x, h1, hcl⟩ := except_bind_ok hcl
  obtain ⟨db1, d1, idx⟩ := x
  dsimp only at hcl
  simp only [Except.ok.injEq, Prod.mk.injEq] at hcl
  rw [← hcl.1]
  exact compile_bad _ h1

/-- `add_fact` cannot raise the offending count: the fact path is guarded by
the variable count (zero only for variable-free arguments) and the variable
path delegates to `add_clause`. -/
theorem add_fact_bad {db db' : ClauseDB} {f : String} {args : List PTerm}
    {p : Option PTerm} {r : Option Nat}
    (h : ClauseDB.add_fact db f args p = .ok (db', r)) :
    badFactCount db' ≤ badFactCount db := by
  unfold ClauseDB.add_fact at h
  dsimp only at h
  by_cases hsize : (ClauseDB.factVarDict args p).size = 0
  · rw [if_pos hsize] at h
    have hg := isGround_of_factVarDict_size_zero args p hsize
    have hnd : (DBNode.fact f args p).isBadFact = false := by
      simp [DBNode.isBadFact, hg]
    rcases happ : db.append_node (DBNode.fact f args p) with ⟨db1, fidx⟩
    rw [happ] at h
    dsimp only at h
    obtain ⟨x, h1, h⟩ := except_bind_ok h
    obtain ⟨db2, idx⟩ := x
    dsimp only at h
    simp only [Except.ok.injEq, Prod.mk.injEq] at h
    have hdb1 : badFactCount db1 = badFactCount db := by
      have hfst : db1 = (db.append_node (DBNode.fact f args p)).1 := by rw [happ]
      rw [hfst, append_node_bad hnd]
    rw [← h.1]
    exact le_trans (add_define_node_bad h1) (le_of_eq hdb1)
  · rw [if_neg hsize] at h
    exact add_clause_bad h

/-- Database construction operations available to a client: `add_fact` and
`add_clause` (a failing operation leaves the database unchanged). -/
inductive DBOp where
  | opFact (f : String) (args : List PTerm) (p : Option PTerm)
  | opClause (h : PHead) (b : PStruct)

/-- Fold a sequence of construction operations over a database. -/
def runDBOps : ClauseDB → List DBOp → ClauseDB
  | db, [] => db
  | db, op :: ops =>
      let db' :=
        match op with
        | .opFact f a p =>
            match db.add_fact f a p with
            | .ok (d, _) => d
            | .error _ => db
        | .opClause h b =>
            match db.add_clause h b with
            | .ok (d, _) => d
            | .error _ => db
      runDBOps db' ops

/-- No construction sequence can raise the offending count. -/
theorem runDBOps_bad (ops : List DBOp) : ∀ db : ClauseDB,
    badFactCount (runDBOps db ops) ≤ badFactCount db := by
  induction ops with
  | nil =>
      intro db
      simp [runDBOps]
  | cons op ops ih =>
      intro db
      cases op with
      | opFact f a p =>
          simp only [runDBOps]
          cases hf : db.add_fact f a p with
          | ok v =>
              obtain ⟨d, r⟩ := v
              exact le_trans (ih d) (add_fact_bad hf)
          | error e => exact ih db
      | opClause hd b =>
          simp only [runDBOps]
          cases hf : db.add_clause hd b with
          | ok v =>
              obtain ⟨d, r⟩ := v
              exact le_trans (ih d) (add_clause_bad hf)
          | error e => exact ih db

/-- C10: a term with at least one variable handed to `add_fact` is not
stored as a fact node but compiled as the clause `term :- true`; and over
any construction sequence from an empty database, no stored fact node ever
has a variable in its argument tuple. -/
theorem claim_C10_facts_variable_free :
    (∀ (db : ClauseDB) (f : String) (args : List PTerm) (p : Option PTerm),
      (ClauseDB.factVarDict args p).size ≠ 0 →
      ClauseDB.add_fact db f args p =
        ClauseDB.add_clause db ⟨f, args, p⟩ (.lit (.app "true" []))) ∧
    (∀ (bs : List (Sig × Int)) (ops : List DBOp),
      badFactCount (runDBOps (.root bs {}) ops) = 0) := by
  constructor
  · intro db f args p hv
    unfold ClauseDB.add_fact
    simp [hv]
  · intro bs ops
    have h := runDBOps_bad ops (.root bs {})
    have h0 : badFactCount (.root bs {}) = 0 := rfl
    omega

/-- Witness for C10: the fact `f(X)` is rerouted to `add_clause` and leaves
no offending fact node. -/
theorem claim_C10_facts_variable_free_witness :
    (ClauseDB.factVarDict [PTerm.var 0] none).size ≠ 0 ∧
    ClauseDB.add_fact (.root [] {}) "f" [PTerm.var 0] none =
      ClauseDB.add_clause (.root [] {}) ⟨"f", [PTerm.var 0], none⟩
        (.lit (.app "true" [])) ∧
    badFactCount (runDBOps (.root [] {}) [.opFact "f" [PTerm.var 0] none]) = 0 :=
  ⟨by decide, claim_C10_facts_variable_free.1 _ "f" [PTerm.var 0] none (by decide),
    claim_C10_facts_variable_free.2 [] [.opFact "f" [PTerm.var 0] none]⟩

/-! ## Claim C2 — results before a single completion -/

/-- Whether an event is a result. -/
def isResultEvt {ρ γ : Type} : Evt ρ γ → Bool
  | .result _ _ => true
  | .complete => false

/-- The result events of a trace. -/
def resultsOnly {ρ γ : Type} (t : List (Evt ρ γ)) : List (Evt ρ γ) :=
  t.filter isResultEvt

/-- The payloads of the result events of a trace. -/
def resultPairs {ρ γ : Type} (t : List (Evt ρ γ)) : List (ρ × γ) :=
  t.filterMap fun e =>
    match e with
    | .result r g => some (r, g)
    | .complete => none

/-- A trace's results, reassembled. -/
theorem resultsOnly_eq_map {ρ γ : Type} (t : List (Evt ρ γ)) :
    resultsOnly t = (resultPairs t).map fun p => Evt.result p.1 p.2 := by
  induction t with
  | nil => rfl
  | cons hd tl ih =>
      cases hd <;> simp [resultsOnly, resultPairs, isResultEvt, List.filter] at ih ⊢ <;>
        exact ih

/-- Splitting an `orRunAux` run over a concatenation. -/
theorem orRunAux_append {ρ γ : Type} (s : OrState) (a b : List (Evt ρ γ)) :
    orRunAux s (a ++ b) =
      ((orRunAux (orRunAux s a).1 b).1,
        (orRunAux s a).2 ++ (orRunAux (orRunAux s a).1 b).2) := by
  induction a generalizing s with
  | nil => simp [orRunAux]
  | cons hd tl ih => simp [orRunAux, ih]

/-- While more completions are pending than the trace holds, a `ProcessOr`
only forwards the results and counts the completions down. -/
theorem orRunAux_results {ρ γ : Type} (u : List (Evt ρ γ)) (s : OrState)
    (hc : (completeCount u : Int) < s.count) (hic : s.isComplete = false) :
    orRunAux s u = (⟨s.count - completeCount u, false⟩, resultsOnly u) := by
  induction u generalizing s with
  | nil =>
      cases s
      simp at hic
      simp [orRunAux, resultsOnly, hic, completeCount]
  | cons hd tl ih =>
      cases hd with
      | result r g =>
          have hc' : (completeCount tl : Int) < s.count := by
            simpa [completeCount] using hc
          simp [orRunAux, orStep, ih s hc' hic, resultsOnly, isResultEvt, completeCount]
      | complete =>
          have hcount : (completeCount tl : Int) < s.count - 1 := by
            simp [completeCount] at hc
            omega
          have hno : ¬ (s.count - 1 ≤ 0) := by
            have : (0 : Int) ≤ completeCount tl := Int.ofNat_nonneg _
            omega
          have step : orStep s (Evt.complete : Evt ρ γ) = ({ s with count := s.count - 1 }, []) := by
            simp [orStep, hno]
          have ihx := ih { s with count := s.count - 1 } hcount hic
          simp [orRunAux, step, ihx, resultsOnly, isResultEvt, completeCount]
          omega

/-- A `ProcessOr` over a trace whose final event is its `count`-th
completion: all results are forwarded first and the single completion is
sent last. -/
theorem orRun_protocol {ρ γ : Type} (k : Nat) (hk : 1 ≤ k)
    (u : List (Evt ρ γ)) (hu : completeCount u = k - 1) :
    orRun k (u ++ [Evt.complete]) = resultsOnly u ++ [Evt.complete] := by
  have hk0 : ¬ (k = 0) := by omega
  have hc : (completeCount u : Int) < (k : Int) := by
    rw [hu]
    omega
  have h1 : orRunAux ⟨(k : Int), false⟩ u = (⟨(k : Int) - completeCount u, false⟩, resultsOnly u) :=
    orRunAux_results u ⟨(k : Int), false⟩ hc rfl
  have h2 : ((k : Int) - completeCount u) - 1 ≤ 0 := by
    rw [hu]
    omega
  simp [orRun, orInit, hk0, orRunAux_append, h1, orRunAux, orStep, h2]

/-- Events that are not completions. -/
def DefEvt.isCompleteEvt {ρ : Type} : DefEvt ρ → Bool
  | .complete => true
  | _ => false

/-- The flush fold only appends result notifications and leaves the
completion latch and the cyclic flag alone. -/
theorem defFlushStep_fold {ρ : Type} [DecidableEq ρ] (cycle : Bool)
    (buf : List (ρ × List GRef)) (acc : DefMach ρ × List (Evt ρ GRef)) :
    ∃ rs : List (ρ × GRef),
      (buf.foldl (defFlushStep cycle) acc).2 =
        acc.2 ++ rs.map (fun p => Evt.result p.1 p.2) ∧
      (buf.foldl (defFlushStep cycle) acc).1.isComplete = acc.1.isComplete ∧
      (buf.foldl (defFlushStep cycle) acc).1.cyclic = acc.1.cyclic := by
  induction buf generalizing acc with
  | nil => exact ⟨[], by simp⟩
  | cons hd tl ih =>
      obtain ⟨rs, hout, hic, hcy⟩ := ih (defFlushStep cycle acc hd)
      refine ⟨(hd.1, if 1 < hd.2.length ∨ cycle then Sink.add_or hd.2 (!cycle)
        else hd.2.headD GRef.zero) :: rs, ?_, ?_, ?_⟩
      · simpa [defFlushStep, List.append_assoc] using hout
      · simpa [defFlushStep] using hic
      · simpa [defFlushStep] using hcy

/-- A flush emits only result notifications and preserves the latch. -/
theorem defFlush_protocol {ρ : Type} [DecidableEq ρ] (s : DefMach ρ) (cycle : Bool) :
    ∃ rs : List (ρ × GRef),
      (defFlush s cycle).2 = rs.map (fun p => Evt.result p.1 p.2) ∧
      (defFlush s cycle).1.isComplete = s.isComplete := by
  obtain ⟨rs, hout, hic, _⟩ := defFlushStep_fold cycle s.buffer (s, [])
  exact ⟨rs, by simpa [defFlush] using hout, by simpa [defFlush] using hic⟩

/-- A non-completion event handled by a `ProcessDefine` emits only result
notifications and preserves the completion latch. -/
theorem defStep_protocol {ρ : Type} [DecidableEq ρ] (s : DefMach ρ)
    (e : DefEvt ρ) (he : e.isCompleteEvt = false) :
    ∃ rs : List (ρ × GRef),
      (defRun s [e]).2 = rs.map (fun p => Evt.result p.1 p.2) ∧
      (defRun s [e]).1.isComplete = s.isComplete := by
  cases e with
  | newResult r g =>
      by_cases hcy : s.cyclic
      · cases hres : alookup s.results r with
        | some v => exact ⟨[], by simp [defRun, defNewResult, hcy, hres]⟩
        | none =>
            exact ⟨[(r, Sink.add_or [g] false)],
              by simp [defRun, defNewResult, hcy, hres]⟩
      · exact ⟨[], by simp [defRun, defNewResult, hcy]⟩
  | complete => simp [DefEvt.isCompleteEvt] at he
  | markCyclic =>
      by_cases hcy : s.cyclic
      · exact ⟨[], by simp [defRun, defMarkCyclic, hcy]⟩
      · obtain ⟨rs, hout, hic⟩ := defFlush_protocol { s with cyclic := true } true
        exact ⟨rs, by simpa [defRun, defMarkCyclic, hcy] using hout,
          by simpa [defRun, defMarkCyclic, hcy] using hic⟩

/-- Splitting a `defRun` over a concatenation. -/
theorem defRun_append {ρ : Type} [DecidableEq ρ] (s : DefMach ρ)
    (a b : List (DefEvt ρ)) :
    defRun s (a ++ b) =
      ((defRun (defRun s a).1 b).1,
        (defRun s a).2 ++ (defRun (defRun s a).1 b).2) := by
  induction a generalizing s with
  | nil => simp [defRun]
  | cons hd tl ih => simp [defRun, ih]

/-- A `ProcessDefine` fed protocol-respecting events — results and cyclic
markings followed by one completion — notifies, in order, only results
followed by exactly one completion. -/
theorem defRun_protocol {ρ : Type} [DecidableEq ρ] (ds : List (DefEvt ρ))
    (hd : ∀ e ∈ ds, e.isCompleteEvt = false) (s : DefMach ρ)
    (hs : s.isComplete = false) :
    ∃ rs : List (ρ × GRef),
      (defRun s (ds ++ [DefEvt.complete])).2 =
        rs.map (fun p => Evt.result p.1 p.2) ++ [Evt.complete] := by
  induction ds generalizing s with
  | nil =>
      obtain ⟨rs, hout, hic⟩ := defFlush_protocol s false
      refine ⟨rs, ?_⟩
      have hic' : (defFlush s false).1.isComplete = false := by rw [hic, hs]
      simp [defRun, defComplete, hic', hout]
  | cons d tl ih =>
      have hd1 : d.isCompleteEvt = false := hd d (by simp)
      obtain ⟨rs1, hout1, hic1⟩ := defStep_protocol s d hd1
      obtain ⟨rs2, hout2⟩ := ih (fun e he => hd e (by simp [he]))
        (defRun s [d]).1 (by rw [hic1, hs])
      refine ⟨rs1 ++ rs2, ?_⟩
      have hsplit := defRun_append s [d] (tl ++ [DefEvt.complete])
      rw [show (d :: tl) ++ [DefEvt.complete] = [d] ++ (tl ++ [DefEvt.complete]) by simp,
        hsplit, hout1, hout2]
      simp

/-- C2: a listener of a disjunction processor or of a tabled-definition
processor receives zero or more results strictly before a completion, and the
completion exactly once — provided each feeding child itself respects the
protocol (the trace fed to the disjunction ends with its `count`-th
completion; the definition receives its single completion last). -/
theorem claim_C2_results_before_single_completion {ρ γ ρ' : Type}
    [DecidableEq ρ'] :
    wellFormed (orRun 0 ([] : List (Evt ρ γ))) ∧
    (∀ (k : Nat) (u : List (Evt ρ γ)), 1 ≤ k → completeCount u = k - 1 →
      wellFormed (orRun k (u ++ [Evt.complete]))) ∧
    (∀ (ds : List (DefEvt ρ')) (s : DefMach ρ'),
      (∀ e ∈ ds, e.isCompleteEvt = false) → s.isComplete = false →
      wellFormed ((defRun s (ds ++ [DefEvt.complete])).2)) := by
  refine ⟨⟨[], by simp [orRun, orInit, orRunAux]⟩, ?_, ?_⟩
  · intro k u hk hu
    refine ⟨resultPairs u, ?_⟩
    rw [orRun_protocol k hk u hu, resultsOnly_eq_map]
  · intro ds s hd hs
    obtain ⟨rs, hout⟩ := defRun_protocol ds hd s hs
    exact ⟨rs, hout⟩

/-- Witness for C2: a disjunction of two children (one result between their
completions) and a definition receiving one result and a cyclic marking
before its completion. -/
theorem claim_C2_results_before_single_completion_witness :
    wellFormed (orRun 2 ([Evt.result 0 GRef.zero, Evt.complete,
        Evt.result 1 GRef.zero] ++ [Evt.complete])) ∧
    wellFormed ((defRun ({} : DefMach Nat)
      ([DefEvt.newResult 0 GRef.zero, DefEvt.markCyclic] ++ [DefEvt.complete])).2) :=
  ⟨(@claim_C2_results_before_single_completion Nat GRef Nat
      instDecidableEqNat).2.1 2
      [Evt.result 0 GRef.zero, Evt.complete, Evt.result 1 GRef.zero]
      (by omega) rfl,
    (@claim_C2_results_before_single_completion Nat GRef Nat
      instDecidableEqNat).2.2 [DefEvt.newResult 0 GRef.zero, DefEvt.markCyclic] {}
      (by intro e he; cases he with
        | head => rfl
        | tail _ h2 => cases h2 with
          | head => rfl
          | tail _ h3 => cases h3) rfl⟩

/-- Witness for C3 at the claim's scenario: the first conjunct yields three
results, the spawned evaluations yield 0, 1 and 2 results, and the
conjunction yields exactly three results then completes exactly once. -/
theorem claim_C3_conjunction_count_witness :
    conjRun ((([(0, GRef.zero), (1, .zero), (2, .zero)] : List (Nat × GRef)).map
        fun p => Evt.result p.1 p.2) ++ [Evt.complete]) exB3 =
      [Evt.result 10 (Sink.add_and GRef.zero GRef.zero),
        Evt.result 20 (Sink.add_and GRef.zero GRef.zero),
        Evt.result 21 (Sink.add_and GRef.zero GRef.zero),
        Evt.complete] ∧
    completeCount (conjRun ((([(0, GRef.zero), (1, .zero), (2, .zero)] :
        List (Nat × GRef)).map fun p => Evt.result p.1 p.2) ++ [Evt.complete])
      exB3) = 1 :=
  claim_C3_conjunction_count exB3 exBres3 (fun _ => rfl)
    [(0, GRef.zero), (1, .zero), (2, .zero)]

/-! ## Claim C1 — tabling: at most one evaluation per call key -/

/-- Appending an entry for the key makes the key present. -/
theorem findEntryAux_append_self {ρ : Type} (a : List (DefEntry ρ))
    (e : DefEntry ρ) (key : Nat × List PTerm) (h : e.key = key) :
    ∀ i, (findEntryAux key (a ++ [e]) i).isSome = true := by
  induction a with
  | nil =>
      intro i
      simp [findEntryAux, h]
  | cons hd tl ih =>
      intro i
      by_cases hh : hd.key = key <;> simp [findEntryAux, hh, ih]

/-- Appending an entry for the key makes the key present (`hasKey` form). -/
theorem hasKey_append_self {ρ : Type} (a : List (DefEntry ρ)) (e : DefEntry ρ)
    (key : Nat × List PTerm) (h : e.key = key) :
    hasKey (a ++ [e]) key = true := by
  simpa [hasKey, findEntry] using findEntryAux_append_self a e key h 0

/-- Appending an entry for another key does not change key presence. -/
theorem findEntryAux_append_ne {ρ : Type} (a : List (DefEntry ρ))
    (e : DefEntry ρ) (key : Nat × List PTerm) (h : ¬ e.key = key) :
    ∀ i, (findEntryAux key (a ++ [e]) i).isSome =
      (findEntryAux key a i).isSome := by
  induction a with
  | nil =>
      intro i
      simp [findEntryAux, h]
  | cons hd tl ih =>
      intro i
      by_cases hh : hd.key = key <;> simp [findEntryAux, hh, ih]

/-- Appending an entry for another key does not change key presence
(`hasKey` form). -/
theorem hasKey_append_ne {ρ : Type} (a : List (DefEntry ρ)) (e : DefEntry ρ)
    (key : Nat × List PTerm) (h : ¬ e.key = key) :
    hasKey (a ++ [e]) key = hasKey a key := by
  simpa [hasKey, findEntry] using findEntryAux_append_ne a e key h 0

/-- Replacing an entry with one of the same key leaves the search alone. -/
theorem findEntryAux_set_same_key {ρ : Type} (arena : List (DefEntry ρ)) :
    ∀ (i : Nat) (e' : DefEntry ρ),
    (∀ e, arena.get? i = some e → e'.key = e.key) →
    ∀ (key : Nat × List PTerm) (n : Nat),
    findEntryAux key (arena.set i e') n = findEntryAux key arena n := by
  induction arena with
  | nil => intro i e' h key n; rfl
  | cons hd tl ih =>
      intro i e' h key n
      cases i with
      | zero =>
          have hk : e'.key = hd.key := h hd rfl
          simp [findEntryAux, hk]
      | succ m =>
          have hkm : ∀ e, tl.get? m = some e → e'.key = e.key := by
            intro e he
            exact h e (by simpa using he)
          simp only [List.set, findEntryAux]
          rw [ih m e' hkm]

/-- Replacing an entry with one of the same key leaves `findEntry` alone. -/
theorem findEntry_set_same_key {ρ : Type} (arena : List (DefEntry ρ)) (i : Nat)
    (e' : DefEntry ρ) (h : ∀ e, arena.get? i = some e → e'.key = e.key)
    (key : Nat × List PTerm) :
    findEntry (arena.set i e') key = findEntry arena key :=
  findEntryAux_set_same_key arena i e' h key 0

/-- Raising an entry's cyclic flag leaves `findEntry` alone. -/
theorem findEntry_setEntryCyclic {ρ : Type} [DecidableEq ρ]
    (arena : List (DefEntry ρ)) (i : Nat) (key : Nat × List PTerm) :
    findEntry (setEntryCyclic arena i) key = findEntry arena key := by
  unfold setEntryCyclic
  cases hg : arena.get? i with
  | none => rfl
  | some e =>
      refine findEntry_set_same_key arena i _ ?_ key
      intro e' he'
      rw [hg] at he'
      cases he'
      rfl

/-- Cyclic propagation leaves `findEntry` alone. -/
theorem findEntry_propagateCyclic {ρ : Type} [DecidableEq ρ] (fuel : Nat) :
    ∀ (arena : List (DefEntry ρ)) (s r : Nat) (key : Nat × List PTerm),
    findEntry (propagateCyclic fuel arena s r) key = findEntry arena key := by
  induction fuel with
  | zero => intro arena s r key; rfl
  | succ n ih =>
      intro arena s r key
      unfold propagateCyclic
      split
      · rfl
      · have hfold : ∀ (ps : List Nat) (a0 : List (DefEntry ρ)),
            findEntry (ps.foldl (fun ar p => propagateCyclic n ar p r) a0) key =
              findEntry a0 key := by
          intro ps
          induction ps with
          | nil => intro a0; rfl
          | cons q qs ihq =>
              intro a0
              rw [List.foldl_cons, ihq, ih]
        rw [hfold, findEntry_setEntryCyclic]

/-- Cycle detection leaves `findEntry` alone. -/
theorem findEntry_detectCycle {ρ : Type} [DecidableEq ρ]
    (arena : List (DefEntry ρ)) (cd pid : Nat) (key : Nat × List PTerm) :
    findEntry (detectCycle arena cd pid) key = findEntry arena key := by
  unfold detectCycle
  rw [findEntry_setEntryCyclic, findEntry_propagateCyclic]

/-- Recording an ancestor leaves `findEntry` alone. -/
theorem findEntry_addAncestor {ρ : Type} [DecidableEq ρ]
    (arena : List (DefEntry ρ)) (i cd : Nat) (key : Nat × List PTerm) :
    findEntry (addAncestor arena i cd) key = findEntry arena key := by
  unfold addAncestor
  cases hg : arena.get? i with
  | none => rfl
  | some e =>
      dsimp only
      split
      · rfl
      · refine findEntry_set_same_key arena i _ ?_ key
        intro e' he'
        rw [hg] at he'
        cases he'
        rfl

/-- Delivering an event to an entry leaves `findEntry` alone. -/
theorem findEntry_deliver {ρ : Type} [DecidableEq ρ]
    (arena : List (DefEntry ρ)) (i : Nat) (e : DefEvt ρ)
    (key : Nat × List PTerm) :
    findEntry (tblStep arena (.deliver i e)).1 key = findEntry arena key := by
  unfold tblStep
  dsimp only
  cases hg : arena.get? i with
  | none => rfl
  | some entry =>
      dsimp only
      rcases hrun : defRun entry.mach [e] with ⟨m, out⟩
      dsimp only
      refine findEntry_set_same_key arena i _ ?_ key
      intro e' he'
      rw [hg] at he'
      cases he'
      rfl

/-- One step of `tblRun`, in equation form. -/
theorem tblRun_cons {ρ : Type} [DecidableEq ρ] (arena : List (DefEntry ρ))
    (op : TblOp ρ) (ops : List (TblOp ρ)) :
    tblRun arena (op :: ops) =
      ((tblRun (tblStep arena op).1 ops).1,
       (tblStep arena op).2.toList ++ (tblRun (tblStep arena op).1 ops).2) := by
  rcases h : tblStep arena op with ⟨a, act⟩
  rcases h2 : tblRun a ops with ⟨a2, acts⟩
  simp [tblRun, h, h2]

/-- `execCount` adds over concatenation. -/
theorem execCount_append {ρ : Type} (key : Nat × List PTerm)
    (l1 l2 : List (DefAction ρ)) :
    execCount key (l1 ++ l2) = execCount key l1 + execCount key l2 := by
  induction l1 with
  | nil => simp [execCount]
  | cons a l ih =>
      cases a with
      | executed k =>
          simp only [List.cons_append, execCount, List.append_eq, ih]
          omega
      | attached k r =>
          simp only [List.cons_append, execCount, List.append_eq, ih]
      | cycleLinked k r =>
          simp only [List.cons_append, execCount, List.append_eq, ih]

/-- A delivery records no action. -/
theorem tblStep_deliver_none {ρ : Type} [DecidableEq ρ]
    (arena : List (DefEntry ρ)) (i : Nat) (e : DefEvt ρ) :
    (tblStep arena (.deliver i e)).2 = none := by
  unfold tblStep
  dsimp only
  cases hg : arena.get? i with
  | none => rfl
  | some entry => rfl

/-- A call step is `eval_define`, with the action recorded. -/
theorem tblStep_call {ρ : Type} [DecidableEq ρ] (arena : List (DefEntry ρ))
    (nid : Nat) (args : List PTerm) (cd : Option Nat) :
    tblStep arena (.call nid args cd) =
      ((eval_define arena nid args cd).1,
       some (eval_define arena nid args cd).2) := by
  rcases h : eval_define arena nid args cd with ⟨a, act⟩
  simp [tblStep, h]

/-- On an unseen key, `_eval_define` creates and executes the entry. -/
theorem eval_define_fresh {ρ : Type} [DecidableEq ρ]
    (arena : List (DefEntry ρ)) (nid : Nat) (args : List PTerm)
    (cd : Option Nat) (h : findEntry arena (nid, args) = none) :
    eval_define arena nid args cd =
      (arena ++ [{ key := (nid, args), parents := cd.toList, executed := true }],
       .executed (nid, args)) := by
  simp only [eval_define, h]

/-- On a seen key, `_eval_define` never executes and the arena keeps its
keys. -/
theorem eval_define_seen {ρ : Type} [DecidableEq ρ]
    (arena : List (DefEntry ρ)) (nid : Nat) (args : List PTerm)
    (cd : Option Nat) (pid : Nat)
    (h : findEntry arena (nid, args) = some pid) :
    (∀ k, (eval_define arena nid args cd).2 ≠ .executed k) ∧
    (∀ key, findEntry (eval_define arena nid args cd).1 key =
      findEntry arena key) := by
  simp only [eval_define, h]
  split
  · exact ⟨fun k hk => by simp at hk, fun key => findEntry_detectCycle _ _ _ _⟩
  · cases cd with
    | none => exact ⟨fun k hk => by simp at hk, fun key => rfl⟩
    | some c =>
        exact ⟨fun k hk => by simp at hk,
          fun key => findEntry_addAncestor _ _ _ _⟩

/-- Each step either records no execution for the key and keeps its
presence, or executes a fresh key, making it present. -/
theorem tblStep_key {ρ : Type} [DecidableEq ρ] (arena : List (DefEntry ρ))
    (op : TblOp ρ) (key : Nat × List PTerm) :
    (execCount key (tblStep arena op).2.toList = 0 ∧
      hasKey (tblStep arena op).1 key = hasKey arena key) ∨
    (hasKey arena key = false ∧ hasKey (tblStep arena op).1 key = true ∧
      execCount key (tblStep arena op).2.toList ≤ 1) := by
  cases op with
  | deliver i e =>
      left
      constructor
      · rw [tblStep_deliver_none]
        rfl
      · simp [hasKey, findEntry_deliver]
  | call nid args cd =>
      rw [tblStep_call]
      cases hfind : findEntry arena (nid, args) with
      | none =>
          rw [eval_define_fresh arena nid args cd hfind]
          by_cases hkey : ((nid, args) : Nat × List PTerm) = key
          · right
            refine ⟨?_, ?_, ?_⟩
            · rw [← hkey]
              simp [hasKey, hfind]
            · exact hasKey_append_self _ _ _ hkey
            · rw [hkey]
              simp [Option.toList, execCount]
          · left
            constructor
            · simp [Option.toList, execCount, hkey]
            · exact hasKey_append_ne _ _ _ hkey
      | some pid =>
          left
          obtain ⟨hact, hpres⟩ := eval_define_seen arena nid args cd pid hfind
          constructor
          · dsimp only
            rcases hA : (eval_define arena nid args cd).2 with k | ⟨k, r⟩ | ⟨k, r⟩
            · exact absurd hA (hact k)
            · simp [Option.toList, execCount]
            · simp [Option.toList, execCount]
          · simp only [hasKey]
            rw [hpres key]

/-- Over a whole run, a key is executed at most once: never if it is already
cached, once at most otherwise. -/
theorem tblRun_exec (ops : List (TblOp ρ)) [DecidableEq ρ] :
    ∀ arena : List (DefEntry ρ), ∀ key : Nat × List PTerm,
    execCount key (tblRun arena ops).2 ≤
      (if hasKey arena key = true then 0 else 1) := by
  induction ops with
  | nil =>
      intro arena key
      simp [tblRun, execCount]
  | cons op ops ih =>
      intro arena key
      rw [tblRun_cons]
      dsimp only
      rw [execCount_append]
      have hrest := ih (tblStep arena op).1 key
      rcases tblStep_key arena op key with ⟨h0, hsame⟩ | ⟨hfalse, htrue, hle⟩
      · rw [hsame] at hrest
        rw [h0, Nat.zero_add]
        exact hrest
      · rw [htrue] at hrest
        rw [hfalse]
        simp at hrest ⊢
        omega

/-- `addAncestor` keeps the entry's machine. -/
theorem addAncestor_mach {ρ : Type} [DecidableEq ρ]
    (arena : List (DefEntry ρ)) (pid cd : Nat) (entry : DefEntry ρ)
    (h : arena.get? pid = some entry) :
    ∃ e', (addAncestor arena pid cd).get? pid = some e' ∧ e'.mach = entry.mach := by
  unfold addAncestor
  rw [h]
  dsimp only
  by_cases hc : cd ∈ entry.parents
  · rw [if_pos hc]
    exact ⟨entry, h, rfl⟩
  · rw [if_neg hc]
    have hlen : pid < arena.length := by
      have := List.get?_eq_some.mp h
      exact this.choose
    refine ⟨{ entry with parents := entry.parents ++ [cd] }, ?_, rfl⟩
    rw [List.get?_eq_getElem?, List.getElem?_set_self]
    exact hlen

/-- C1: in a grounding run starting from an empty cache, each key's
candidate clauses are executed at most once; the first call with a key
creates the entry (with the caller among its ancestors) and executes it; a
later call whose caller is not an ancestor of the entry only attaches the
caller, replaying the entry's recorded results and — if the entry is
complete — a replayed completion, with no execution. -/
theorem claim_C1_tabling_single_execution {ρ : Type} [DecidableEq ρ] :
    (∀ (ops : List (TblOp ρ)) (key : Nat × List PTerm),
      execCount key (tblRun ([] : List (DefEntry ρ)) ops).2 ≤ 1) ∧
    (∀ (arena : List (DefEntry ρ)) (nodeId : Nat) (callArgs : List PTerm)
      (cd : Option Nat),
      findEntry arena (nodeId, callArgs) = none →
      eval_define arena nodeId callArgs cd =
        (arena ++ [{ key := (nodeId, callArgs), parents := cd.toList,
                     executed := true }], .executed (nodeId, callArgs))) ∧
    (∀ (arena : List (DefEntry ρ)) (nodeId : Nat) (callArgs : List PTerm)
      (cd pid : Nat) (entry : DefEntry ρ),
      findEntry arena (nodeId, callArgs) = some pid →
      arena.get? pid = some entry →
      hasAncestor arena cd pid = false →
      eval_define arena nodeId callArgs (some cd) =
        (addAncestor arena pid cd,
          .attached (nodeId, callArgs) (defAddListenerReplay entry.mach))) := by
  refine ⟨?_, ?_, ?_⟩
  · intro ops key
    have h := tblRun_exec ops ([] : List (DefEntry ρ)) key
    have h0 : hasKey ([] : List (DefEntry ρ)) key = false := rfl
    rw [h0] at h
    simpa using h
  · intro arena nodeId callArgs cd hfind
    exact eval_define_fresh arena nodeId callArgs cd hfind
  · intro arena nodeId callArgs cd pid entry hfind hget hanc
    obtain ⟨e', hg', hm'⟩ := addAncestor_mach arena pid cd entry hget
    simp only [eval_define, hfind, hanc, Bool.false_eq_true, if_false, hg', hm']

/-- A one-entry arena whose entry has recorded one result and completed. -/
def exampleArena1 : List (DefEntry (List PTerm)) :=
  [{ key := (5, []),
     mach := { results := [([], GRef.zero)], isComplete := true },
     executed := true }]

/-- Witness for C1: two calls with one key execute at most once; the first
call on the empty cache creates and executes; a repeated call by a
non-ancestor caller on `exampleArena1` is attached with the recorded result
and completion replayed. -/
theorem claim_C1_tabling_single_execution_witness :
    execCount ((5, []) : Nat × List PTerm)
      (tblRun ([] : List (DefEntry (List PTerm)))
        [.call 5 [] none, .call 5 [] none]).2 ≤ 1 ∧
    eval_define ([] : List (DefEntry (List PTerm))) 5 [] none =
      ([{ key := (5, []), parents := [], executed := true }],
        .executed (5, [])) ∧
    eval_define exampleArena1 5 [] (some 7) =
      (addAncestor exampleArena1 0 7,
        .attached (5, []) [Evt.result [] GRef.zero, Evt.complete]) :=
  ⟨claim_C1_tabling_single_execution.1 [.call 5 [] none, .call 5 [] none] (5, []),
    claim_C1_tabling_single_execution.2.1 [] 5 [] none rfl,
    claim_C1_tabling_single_execution.2.2 exampleArena1 5 [] 7 0
      { key := (5, []),
        mach := { results := [([], GRef.zero)], isComplete := true },
        executed := true } rfl rfl rfl⟩

/-! ## Claim C5 — the cyclic flag

`ProcessDefine.propagateCyclic` (engine_event.py, lines 461-465) reads
`if root != self : self.cyclic = True; for p in self.parents :
p.propagateCyclic(root)`: the walk stops at the cycle's owner (`root`), who
is marked separately by `ProcessDefineCycle.__init__`
(`self.parent.cyclic = True`).  The flag therefore spreads from the caller
along parent chains that avoid the owner, and ancestors reachable only
through the owner are never marked.  The flag itself is monotone: no event
handler of `ProcessDefine` resets it. -/

/-- The cyclic flag of the arena entry at `i`. -/
def cyclicAt {ρ : Type} (arena : List (DefEntry ρ)) (i : Nat) : Bool :=
  match arena.get? i with
  | some e => e.mach.cyclic
  | none => false

/-- A parent chain out of `i` visiting `ns`: every visited node is a live
index other than `root`, and each step follows a recorded parent link —
exactly the walks `propagateCyclic` performs. -/
def avoidingChain {ρ : Type} (arena : List (DefEntry ρ)) (root : Nat) :
    Nat → List Nat → Bool
  | i, [] => decide (i ≠ root) && decide (i < arena.length)
  | i, p :: rest => decide (i ≠ root) && decide (i < arena.length) &&
      decide (p ∈ parentsOf arena i) && avoidingChain arena root p rest

/-- The last node of a chain starting at `i`. -/
def chainEnd (i : Nat) : List Nat → Nat
  | [] => i
  | p :: rest => chainEnd p rest

/-- `_flush_buffer` leaves the cyclic flag alone. -/
theorem defFlush_cyclic {ρ : Type} [DecidableEq ρ] (s : DefMach ρ) (c : Bool) :
    (defFlush s c).1.cyclic = s.cyclic := by
  unfold defFlush
  dsimp only
  obtain ⟨rs, h1, h2, h3⟩ := defFlushStep_fold c s.buffer (s, [])
  exact h3

/-- The cyclic setter leaves the flag on. -/
theorem defMarkCyclic_cyclic {ρ : Type} [DecidableEq ρ] (s : DefMach ρ) :
    (defMarkCyclic s).1.cyclic = true := by
  unfold defMarkCyclic
  by_cases h : s.cyclic = true
  · rw [if_pos h]
    exact h
  · rw [if_neg h]
    rw [defFlush_cyclic]

/-- `newResult` never changes the cyclic flag. -/
theorem defNewResult_cyclic {ρ : Type} [DecidableEq ρ] (s : DefMach ρ)
    (r : ρ) (g : GRef) : (defNewResult s r g).1.cyclic = s.cyclic := by
  unfold defNewResult
  by_cases h : s.cyclic = true
  · rw [if_pos h]
    cases alookup s.results r <;> rfl
  · rw [if_neg h]

/-- `complete` never changes the cyclic flag. -/
theorem defComplete_cyclic {ρ : Type} [DecidableEq ρ] (s : DefMach ρ) :
    (defComplete s).1.cyclic = s.cyclic := by
  unfold defComplete
  dsimp only
  by_cases h : (defFlush s false).1.isComplete = true
  · rw [if_pos h]
    exact defFlush_cyclic s false
  · rw [if_neg h]
    exact defFlush_cyclic s false

/-- No event fed to a `ProcessDefine` resets a raised cyclic flag. -/
theorem defRun_cyclic_mono {ρ : Type} [DecidableEq ρ] :
    ∀ (evts : List (DefEvt ρ)) (s : DefMach ρ),
    s.cyclic = true → (defRun s evts).1.cyclic = true := by
  intro evts
  induction evts with
  | nil => intro s h; exact h
  | cons e t ih =>
      intro s h
      cases e with
      | newResult r g =>
          simp only [defRun]
          refine ih _ ?_
          rw [defNewResult_cyclic]
          exact h
      | complete =>
          simp only [defRun]
          refine ih _ ?_
          rw [defComplete_cyclic]
          exact h
      | markCyclic =>
          simp only [defRun]
          exact ih _ (defMarkCyclic_cyclic s)

/-- `cyclicAt` after replacing one entry, in equation form. -/
theorem cyclicAt_set {ρ : Type} (arena : List (DefEntry ρ)) (k : Nat)
    (e' : DefEntry ρ) (i : Nat) :
    cyclicAt (arena.set k e') i =
      if k = i then
        (if k < arena.length then e'.mach.cyclic else cyclicAt arena i)
      else cyclicAt arena i := by
  unfold cyclicAt
  rw [List.get?_eq_getElem?, List.getElem?_set, List.get?_eq_getElem?]
  by_cases hk : k = i
  · subst hk
    by_cases hl : k < arena.length
    · simp [hl]
    · have hnone : arena[k]? = none := List.getElem?_eq_none (by omega)
      simp [hl, hnone]
  · simp [hk]

/-- `parentsOf` ignores a replacement that keeps the parent list. -/
theorem parentsOf_set {ρ : Type} (arena : List (DefEntry ρ)) (k : Nat)
    (e' : DefEntry ρ) (i : Nat)
    (h : ∀ e, arena.get? k = some e → e'.parents = e.parents) :
    parentsOf (arena.set k e') i = parentsOf arena i := by
  unfold parentsOf
  rw [List.get?_eq_getElem?, List.getElem?_set, List.get?_eq_getElem?]
  by_cases hk : k = i
  · subst hk
    by_cases hl : k < arena.length
    · have hg : arena[k]? = some (arena[k]) := List.getElem?_eq_getElem hl
      rw [if_pos rfl, if_pos hl, hg]
      have he := h (arena[k]) (by rw [List.get?_eq_getElem?]; exact hg)
      simp [he]
    · have hnone : arena[k]? = none := List.getElem?_eq_none (by omega)
      rw [if_pos rfl, if_neg hl, hnone]
  · rw [if_neg hk]

/-- Raising one entry's flag keeps every length. -/
theorem setEntryCyclic_length {ρ : Type} [DecidableEq ρ]
    (arena : List (DefEntry ρ)) (i : Nat) :
    (setEntryCyclic arena i).length = arena.length := by
  unfold setEntryCyclic
  cases arena.get? i with
  | none => rfl
  | some e => simp

/-- Raising one entry's flag keeps every parent list. -/
theorem parentsOf_setEntryCyclic {ρ : Type} [DecidableEq ρ]
    (arena : List (DefEntry ρ)) (k i : Nat) :
    parentsOf (setEntryCyclic arena k) i = parentsOf arena i := by
  unfold setEntryCyclic
  cases hg : arena.get? k with
  | none => rfl
  | some e =>
      refine parentsOf_set arena k _ i ?_
      intro x hx
      rw [hg] at hx
      cases hx
      rfl

/-- Raising one entry's flag never lowers another. -/
theorem cyclicAt_setEntryCyclic_mono {ρ : Type} [DecidableEq ρ]
    (arena : List (DefEntry ρ)) (k j : Nat) (h : cyclicAt arena j = true) :
    cyclicAt (setEntryCyclic arena k) j = true := by
  unfold setEntryCyclic
  cases hg : arena.get? k with
  | none => exact h
  | some e =>
      rw [cyclicAt_set]
      by_cases hk : k = j
      · subst hk
        have hl : k < arena.length := (List.get?_eq_some.mp hg).choose
        rw [if_pos rfl, if_pos hl]
        exact defMarkCyclic_cyclic e.mach
      · rw [if_neg hk]
        exact h

/-- Raising the flag of a live entry raises it. -/
theorem cyclicAt_setEntryCyclic_self {ρ : Type} [DecidableEq ρ]
    (arena : List (DefEntry ρ)) (i : Nat) (h : i < arena.length) :
    cyclicAt (setEntryCyclic arena i) i = true := by
  unfold setEntryCyclic
  have hg : arena.get? i = some (arena[i]) := by
    rw [List.get?_eq_getElem?]
    exact List.getElem?_eq_getElem h
  rw [hg, cyclicAt_set, if_pos rfl, if_pos h]
  exact defMarkCyclic_cyclic _

/-- Propagation keeps every length. -/
theorem propagateCyclic_length {ρ : Type} [DecidableEq ρ] (fuel : Nat) :
    ∀ (arena : List (DefEntry ρ)) (s r : Nat),
    (propagateCyclic fuel arena s r).length = arena.length := by
  induction fuel with
  | zero => intro arena s r; rfl
  | succ n ih =>
      intro arena s r
      unfold propagateCyclic
      split
      · rfl
      · have hfold : ∀ (ps : List Nat) (a0 : List (DefEntry ρ)),
            (ps.foldl (fun ar p => propagateCyclic n ar p r) a0).length =
              a0.length := by
          intro ps
          induction ps with
          | nil => intro a0; rfl
          | cons q qs ihq =>
              intro a0
              rw [List.foldl_cons, ihq, ih]
        rw [hfold, setEntryCyclic_length]

/-- Propagation keeps every parent list. -/
theorem parentsOf_propagateCyclic {ρ : Type} [DecidableEq ρ] (fuel : Nat) :
    ∀ (arena : List (DefEntry ρ)) (s r i : Nat),
    parentsOf (propagateCyclic fuel arena s r) i = parentsOf arena i := by
  induction fuel with
  | zero => intro arena s r i; rfl
  | succ n ih =>
      intro arena s r i
      unfold propagateCyclic
      split
      · rfl
      · have hfold : ∀ (ps : List Nat) (a0 : List (DefEntry ρ)),
            parentsOf (ps.foldl (fun ar p => propagateCyclic n ar p r) a0) i =
              parentsOf a0 i := by
          intro ps
          induction ps with
          | nil => intro a0; rfl
          | cons q qs ihq =>
              intro a0
              rw [List.foldl_cons, ihq, ih]
        rw [hfold, parentsOf_setEntryCyclic]

/-- Propagation never lowers a flag. -/
theorem cyclicAt_propagateCyclic_mono {ρ : Type} [DecidableEq ρ] (fuel : Nat) :
    ∀ (arena : List (DefEntry ρ)) (s r j : Nat),
    cyclicAt arena j = true →
    cyclicAt (propagateCyclic fuel arena s r) j = true := by
  induction fuel with
  | zero => intro arena s r j h; exact h
  | succ n ih =>
      intro arena s r j h
      unfold propagateCyclic
      split
      · exact h
      · have hfold : ∀ (ps : List Nat) (a0 : List (DefEntry ρ)),
            cyclicAt a0 j = true →
            cyclicAt (ps.foldl (fun ar p => propagateCyclic n ar p r) a0) j =
              true := by
          intro ps
          induction ps with
          | nil => intro a0 h0; exact h0
          | cons q qs ihq =>
              intro a0 h0
              rw [List.foldl_cons]
              exact ihq _ (ih _ _ _ _ h0)
        exact hfold _ _ (cyclicAt_setEntryCyclic_mono arena s j h)

/-- Folding propagation over a parent list never lowers a flag. -/
theorem cyclicAt_foldl_propagate_mono {ρ : Type} [DecidableEq ρ]
    (f r j : Nat) :
    ∀ (ps : List Nat) (a : List (DefEntry ρ)),
    cyclicAt a j = true →
    cyclicAt (ps.foldl (fun ar q => propagateCyclic f ar q r) a) j = true := by
  intro ps
  induction ps with
  | nil => intro a h; exact h
  | cons q qs ih =>
      intro a h
      rw [List.foldl_cons]
      exact ih _ (cyclicAt_propagateCyclic_mono f _ _ _ _ h)

/-- A chain only reads lengths and parent lists, so it transfers between
arenas agreeing on them. -/
theorem avoidingChain_congr {ρ : Type} (a b : List (DefEntry ρ)) (root : Nat)
    (hlen : a.length = b.length)
    (hpar : ∀ x, parentsOf a x = parentsOf b x) :
    ∀ (ns : List Nat) (i : Nat),
    avoidingChain a root i ns = avoidingChain b root i ns := by
  intro ns
  induction ns with
  | nil =>
      intro i
      simp only [avoidingChain, hlen]
  | cons p rest ih =>
      intro i
      simp only [avoidingChain, hlen, hpar, ih]

/-- Folding propagation over a parent list marks the end of a chain rooted
at any member, given that single propagation does. -/
theorem foldl_propagate_marks {ρ : Type} [DecidableEq ρ] (root f : Nat)
    (rest : List Nat)
    (hmark : ∀ (a : List (DefEntry ρ)) (q : Nat),
      avoidingChain a root q rest = true →
      cyclicAt (propagateCyclic f a q root) (chainEnd q rest) = true) :
    ∀ (ps : List Nat) (a : List (DefEntry ρ)) (p : Nat),
    p ∈ ps → avoidingChain a root p rest = true →
    cyclicAt (ps.foldl (fun ar q => propagateCyclic f ar q root) a)
      (chainEnd p rest) = true := by
  intro ps
  induction ps with
  | nil =>
      intro a p hp hchain
      exact absurd hp (List.not_mem_nil p)
  | cons q qs ihq =>
      intro a p hp hchain
      rw [List.foldl_cons]
      rcases List.mem_cons.mp hp with hpq | hps
      · subst hpq
        exact cyclicAt_foldl_propagate_mono f root (chainEnd p rest) qs
          (propagateCyclic f a p root) (hmark a p hchain)
      · have hch2 : avoidingChain (propagateCyclic f a q root) root p rest =
            true := by
          rw [avoidingChain_congr (propagateCyclic f a q root) a root
            (propagateCyclic_length f a q root)
            (fun x => parentsOf_propagateCyclic f a q root x)]
          exact hchain
        exact ihq _ p hps hch2

/-- Propagation marks the end of every owner-avoiding parent chain it can
reach within its fuel. -/
theorem propagateCyclic_marks {ρ : Type} [DecidableEq ρ] (root : Nat) :
    ∀ (ns : List Nat) (fuel : Nat) (arena : List (DefEntry ρ)) (i : Nat),
    avoidingChain arena root i ns = true → ns.length < fuel →
    cyclicAt (propagateCyclic fuel arena i root) (chainEnd i ns) = true := by
  intro ns
  induction ns with
  | nil =>
      intro fuel arena i hc hf
      cases fuel with
      | zero => omega
      | succ n =>
          simp only [avoidingChain, Bool.and_eq_true, decide_eq_true_eq] at hc
          unfold propagateCyclic
          rw [if_neg hc.1]
          exact cyclicAt_foldl_propagate_mono n root i _ _
            (cyclicAt_setEntryCyclic_self arena i hc.2)
  | cons p rest ih =>
      intro fuel arena i hc hf
      cases fuel with
      | zero => simp at hf
      | succ n =>
          simp only [avoidingChain, Bool.and_eq_true, decide_eq_true_eq] at hc
          obtain ⟨⟨⟨hir, hlen⟩, hp⟩, hrest⟩ := hc
          have hf2 : rest.length < n := by
            simp only [List.length_cons] at hf
            omega
          unfold propagateCyclic
          rw [if_neg hir]
          exact foldl_propagate_marks root n rest
            (fun a q hcq => ih n a q hcq hf2)
            (parentsOf (setEntryCyclic arena i) i) (setEntryCyclic arena i) p
            (by rw [parentsOf_setEntryCyclic]; exact hp)
            (by rw [avoidingChain_congr (setEntryCyclic arena i) arena root
                  (setEntryCyclic_length arena i)
                  (fun x => parentsOf_setEntryCyclic arena i x)]
                exact hrest)

/-- `cyclicAt` is unchanged by recording an ancestor. -/
theorem cyclicAt_addAncestor {ρ : Type} [DecidableEq ρ]
    (arena : List (DefEntry ρ)) (pid cd i : Nat) :
    cyclicAt (addAncestor arena pid cd) i = cyclicAt arena i := by
  unfold addAncestor
  cases hg : arena.get? pid with
  | none => rfl
  | some e =>
      dsimp only
      split
      · rfl
      · rw [cyclicAt_set]
        by_cases hk : pid = i
        · subst hk
          have hl : pid < arena.length := (List.get?_eq_some.mp hg).choose
          rw [if_pos rfl, if_pos hl]
          unfold cyclicAt
          rw [hg]
        · rw [if_neg hk]

/-- Appending a fresh entry never lowers a flag. -/
theorem cyclicAt_append_mono {ρ : Type} (arena : List (DefEntry ρ))
    (e : DefEntry ρ) (i : Nat) (h : cyclicAt arena i = true) :
    cyclicAt (arena ++ [e]) i = true := by
  unfold cyclicAt at h ⊢
  cases hg : arena.get? i with
  | none =>
      rw [hg] at h
      exact Bool.noConfusion h
  | some x =>
      rw [hg] at h
      have hl : i < arena.length := (List.get?_eq_some.mp hg).choose
      rw [List.get?_eq_getElem?, List.getElem?_append_left hl,
        ← List.get?_eq_getElem?, hg]
      exact h

/-- No single cache operation lowers a flag. -/
theorem tblStep_cyclic_mono {ρ : Type} [DecidableEq ρ]
    (arena : List (DefEntry ρ)) (op : TblOp ρ) (i : Nat)
    (h : cyclicAt arena i = true) :
    cyclicAt (tblStep arena op).1 i = true := by
  cases op with
  | deliver k e =>
      unfold tblStep
      dsimp only
      cases hg : arena.get? k with
      | none => exact h
      | some entry =>
          rw [cyclicAt_set]
          by_cases hk : k = i
          · subst hk
            have hl : k < arena.length := (List.get?_eq_some.mp hg).choose
            rw [if_pos rfl, if_pos hl]
            refine defRun_cyclic_mono [e] entry.mach ?_
            unfold cyclicAt at h
            rw [hg] at h
            exact h
          · rw [if_neg hk]
            exact h
  | call nid args cd =>
      rw [tblStep_call]
      dsimp only
      cases hfind : findEntry arena (nid, args) with
      | none =>
          rw [eval_define_fresh arena nid args cd hfind]
          exact cyclicAt_append_mono _ _ _ h
      | some pid =>
          simp only [eval_define, hfind]
          split
          · dsimp only
            unfold detectCycle
            exact cyclicAt_setEntryCyclic_mono _ _ _
              (cyclicAt_propagateCyclic_mono _ _ _ _ _ h)
          · cases cd with
            | none => exact h
            | some c =>
                dsimp only
                rw [cyclicAt_addAncestor]
                exact h

/-- No grounding-run operation sequence lowers a flag. -/
theorem tblRun_cyclic_mono {ρ : Type} [DecidableEq ρ] :
    ∀ (ops : List (TblOp ρ)) (arena : List (DefEntry ρ)) (i : Nat),
    cyclicAt arena i = true → cyclicAt (tblRun arena ops).1 i = true := by
  intro ops
  induction ops with
  | nil => intro arena i h; exact h
  | cons op ops ih =>
      intro arena i h
      rw [tblRun_cons]
      dsimp only
      exact ih _ _ (tblStep_cyclic_mono arena op i h)

/-- Arena for the C5 counterexample: parent links 2 → 1 → 0 (entry 0 is a
transitive ancestor of both others); the cycle caller 2 / owner 1 is then
detected. -/
def cexC5Arena : List (DefEntry (List PTerm)) :=
  [{ key := (10, []) },
   { key := (11, []), parents := [0] },
   { key := (12, []), parents := [1] }]

/-- C5, counterexample: caller 2 of owner 1 is a cycle (1 is among 2's
ancestors); after detection both caller and owner are cyclic, and entry 0
is still an ancestor of the cyclic entry 2 — yet 0 is not marked, refuting
"every transitive ancestor of a cyclic entry is also marked cyclic":
`propagateCyclic` stops at the owner (`if root != self`). -/
theorem claim_C5_owner_ancestors_not_marked :
    hasAncestor cexC5Arena 2 1 = true ∧
    cyclicAt (detectCycle cexC5Arena 2 1) 2 = true ∧
    cyclicAt (detectCycle cexC5Arena 2 1) 1 = true ∧
    (0 ∈ getAncestors (detectCycle cexC5Arena 2 1) 2) ∧
    cyclicAt (detectCycle cexC5Arena 2 1) 0 = false := by
  refine ⟨?_, ?_, ?_, ?_, ?_⟩ <;> decide

/-- C5 (amended): within a grounding run the cyclic flag is monotone — once
an entry is marked, no later call or delivered event resets it — and when a
cycle caller/owner is detected the owner is marked, and the flag is
propagated from the caller to the end of every parent chain avoiding the
owner (with the one-node chain, the caller itself); the owner stops the
propagation, so ancestors reachable only through it stay unmarked (see the
counterexample). -/
theorem claim_C5_cyclic_monotone_owner_stop {ρ : Type} [DecidableEq ρ] :
    (∀ (arena : List (DefEntry ρ)) (ops : List (TblOp ρ)) (i : Nat),
      cyclicAt arena i = true → cyclicAt (tblRun arena ops).1 i = true) ∧
    (∀ (arena : List (DefEntry ρ)) (cd pid : Nat),
      pid < arena.length → cyclicAt (detectCycle arena cd pid) pid = true) ∧
    (∀ (arena : List (DefEntry ρ)) (cd pid : Nat) (ns : List Nat),
      avoidingChain arena pid cd ns = true → ns.length ≤ arena.length →
      cyclicAt (detectCycle arena cd pid) (chainEnd cd ns) = true) := by
  refine ⟨?_, ?_, ?_⟩
  · intro arena ops i h
    exact tblRun_cyclic_mono ops arena i h
  · intro arena cd pid h
    unfold detectCycle
    refine cyclicAt_setEntryCyclic_self _ pid ?_
    rw [propagateCyclic_length]
    exact h
  · intro arena cd pid ns hc hlen
    unfold detectCycle
    refine cyclicAt_setEntryCyclic_mono _ pid _ ?_
    exact propagateCyclic_marks pid ns (arena.length + 1) arena cd hc
      (by omega)

/-- A one-entry arena whose entry is already marked cyclic. -/
def cexC5CyclicArena : List (DefEntry (List PTerm)) :=
  [{ key := (10, []), mach := { cyclic := true } }]

/-- Witness for C5: the marked entry stays cyclic across a delivered
completion; on `cexC5Arena`, detecting the cycle caller 2 / owner 1 marks
the owner, and the one-node owner-avoiding chain at the caller is marked. -/
theorem claim_C5_cyclic_monotone_owner_stop_witness :
    cyclicAt cexC5CyclicArena 0 = true ∧
    cyclicAt (tblRun cexC5CyclicArena
      [TblOp.deliver 0 DefEvt.complete]).1 0 = true ∧
    (1 < cexC5Arena.length ∧
      cyclicAt (detectCycle cexC5Arena 2 1) 1 = true) ∧
    (avoidingChain cexC5Arena 1 2 [] = true ∧
      cyclicAt (detectCycle cexC5Arena 2 1) (chainEnd 2 []) = true) :=
  ⟨rfl,
   claim_C5_cyclic_monotone_owner_stop.1 cexC5CyclicArena
     [TblOp.deliver 0 DefEvt.complete] 0 rfl,
   ⟨by decide, claim_C5_cyclic_monotone_owner_stop.2.1 cexC5Arena 2 1
     (by decide)⟩,
   ⟨by decide, claim_C5_cyclic_monotone_owner_stop.2.2 cexC5Arena 2 1 []
     (by decide) (by decide)⟩⟩


end Problog
